import Mathlib

/-!
# goform: picture-format report rendering

A shallow embedding of `formatters.go`, `report.go` and `util.go`.

Go strings are byte sequences and are modelled as lists of byte values.  Functions
that can fail return `Except Fault _`; a `Fault` is either an `error` value returned
by the Go code or a run-time panic (index out of range, negative repeat count).

The collaborators that live outside the repository (float formatting of `fmt`,
the `humanize` package, `gjson` path lookup, `json.Marshal`, `strings.TrimSpace`)
are the fields of the structure `Ext`; every definition that calls one of them takes
an `Ext` as its first argument.
-/

namespace Goform

/-! ## Strings -/

/-- A Go string: a sequence of bytes (each value below 256). -/
abbrev GoString := List Nat

/-- The bytes of an ASCII literal. -/
def str (s : String) : GoString := s.toList.map Char.toNat

/-- `strings.Contains(s, string(b))` for a one-byte needle. -/
def containsByte (s : GoString) (b : Nat) : Bool := s.contains b

/-- `strings.ContainsAny(s, chars)` for a set `chars` of ASCII characters: true when some
byte of `s` is one of them (an ASCII byte is never part of a longer rune). -/
def containsAny (s chars : GoString) : Bool := s.any (fun b => chars.contains b)

/-- `strings.HasPrefix`. -/
def hasPrefix (s pre : GoString) : Bool := pre.isPrefixOf s

/-- `strings.TrimPrefix`. -/
def trimPrefix (s pre : GoString) : GoString :=
  if hasPrefix s pre then s.drop pre.length else s

/-- `strings.Split(s, string(sep))` for a one-byte separator: one part more than there
are separators, so the result is never empty. -/
def split (sep : Nat) : GoString → List GoString
  | [] => [[]]
  | c :: cs =>
    if c = sep then [] :: split sep cs
    else match split sep cs with
      | [] => [[c]]
      | p :: ps => (c :: p) :: ps

/-- `strings.Count(s, string(b))` for a one-byte needle. -/
def countByte (s : GoString) (b : Nat) : Nat := s.count b

/-- `strings.Replace(s, old, new, 1)`: the first occurrence of `old` in `s` is replaced
by `new`; an empty `old` matches at the start; `s` is returned when `old` does not occur. -/
def replaceFirst (s old new : GoString) : GoString :=
  if old.isPrefixOf s then new ++ s.drop old.length
  else match s with
    | [] => []
    | c :: cs => c :: replaceFirst cs old new

/-- `strings.ReplaceAll(s, ".", "\\.")`. -/
def escapeDots (s : GoString) : GoString :=
  s.flatMap (fun b => if b = 46 then [92, 46] else [b])

/-- `string(b)` for a byte `b`: the UTF-8 encoding of the code point `b`, one byte for
ASCII and two bytes from 0x80 on. -/
def byteToString (b : Nat) : GoString :=
  if b < 128 then [b] else [192 + b / 64, 128 + b % 64]

/-- The decimal digits of a natural number. -/
def decimalNat (n : Nat) : GoString := (Nat.toDigits 10 n).map Char.toNat

/-- Outcome of `fmt.Sprintf("%d", n)` for an integer: decimal digits, with a leading `-`
when negative. -/
def decimal (n : Int) : GoString :=
  if n < 0 then 45 :: decimalNat n.natAbs else decimalNat n.natAbs

/-! ## Failures -/

/-- The ways a call can fail: the `error` values built in the source, and panics. -/
inductive Fault
  /-- The text `invalid format: %s`. -/
  | invalidFormat (format : GoString)
  /-- The text `invalid string format: %s`. -/
  | invalidStringFormat (format : GoString)
  /-- The text `unknown number format: %v`. -/
  | unknownNumberFormat (format : GoString)
  /-- The text `invalid number format: %s`. -/
  | invalidNumberFormat (format : GoString)
  /-- The text `invalid type %s`. -/
  | invalidType
  /-- The text `do not know how to handle value %v`. -/
  | unhandledValue
  /-- The text `invalid variable count`. -/
  | invalidVariableCount
  /-- The text `invalid variable line: %v`. -/
  | invalidVariableLine (cause : Fault)
  /-- The text `could not render item %s into %s: %v`. -/
  | couldNotRender (item picture : GoString) (cause : Fault)
  /-- An error returned by `json.Marshal`. -/
  | marshal
  /-- The text `header processing error: %v`. -/
  | headerProcessing (cause : Fault)
  /-- The text `footer processing error: %v`. -/
  | footerProcessing (cause : Fault)
  /-- The error `bufio.ErrTooLong` of a scanner. -/
  | tooLong
  /-- Run-time panic: index out of range. -/
  | panicIndex
  /-- Run-time panic: `strings.Repeat` with a negative count. -/
  | panicRepeat
  deriving DecidableEq, Repr

deriving instance DecidableEq for Except

/-- `strings.Repeat(string(b), n)`; panics on a negative count. -/
def goRepeat (b : Nat) (n : Int) : Except Fault GoString :=
  if n < 0 then .error .panicRepeat else .ok (List.replicate n.toNat b)

/-! ## Values, contexts and collaborators -/

/-- A `gjson.Result` by type tag.  `missing` is a result for which `Exists()` is false;
a number carries what `Float()` and `Int()` return; `json` is an array or object. -/
inductive Value (F : Type)
  | missing
  | null
  | bool (b : Bool)
  | number (float : F) (int : Int)
  | string (s : GoString)
  | json
  deriving DecidableEq, Repr

/-- The dynamic value handed to `formatNumber`: an integer (`int`, `int64`, ...) or a
`float64`. -/
inductive NumArg (F : Type)
  | int (n : Int)
  | float (f : F)
  deriving DecidableEq, Repr

/-- The accumulator `map[string]float64`. -/
abbrev Acc (F : Type) := GoString → Option F

/-- The evaluation context built by `Report.newState`. `row` and `data` are `none` when
the Go value is `nil`. -/
structure Ctx (F J : Type) where
  page : Int
  name : GoString
  currentRow : Nat
  summary : Acc F
  row : Option J
  data : Option J

/-- Collaborators outside the repository, over the float type `F` and the type `J` of
dynamic row data. -/
structure Ext (F J : Type) where
  /-- The constant `float64(0)`. -/
  zero : F
  /-- Addition of `float64`. -/
  add : F → F → F
  /-- Conversion `uint64(f)`. -/
  toUint64 : F → Nat
  /-- Outcome of `fmt.Sprintf("%d", f)` for a `float64`. -/
  fmtDFloat : F → GoString
  /-- Outcome of `fmt.Sprintf("%W.Pf", v)` for width `W` and precision `P`. -/
  fmtF : Nat → Nat → NumArg F → GoString
  /-- Function `humanize.Commaf`. -/
  commaf : F → GoString
  /-- Function `humanize.Comma`. -/
  comma : Int → GoString
  /-- Function `humanize.IBytes`. -/
  ibytes : Nat → GoString
  /-- Function `strings.TrimSpace`. -/
  trimSpace : GoString → GoString
  /-- Whether `json.Marshal` succeeds on the context. -/
  marshals : Ctx F J → Bool
  /-- Function `gjson.GetBytes` on the marshalled context. -/
  gjsonGet : Ctx F J → GoString → Value F

variable {F J : Type}

/-! ## formatters.go -/

/-- The function `getDataItem`. -/
def getDataItem (E : Ext F J) (data : Ctx F J) (item : GoString) : Value F :=
  let sum := hasPrefix item (str "report.summary.")
  let item := if sum then
      str "report.summary." ++ escapeDots (trimPrefix item (str "report.summary."))
    else item
  let val := E.gjsonGet data item
  match val, sum with
  | .missing, true => .number E.zero 0
  | .null, true => .number E.zero 0
  | v, _ => v

/-- The closure `makeSuf` of `formatString`. -/
def makeSuf (format v : GoString) : GoString :=
  let suf := byteToString (format.getLastD 0)
  if containsAny suf (str "<>|") then v
  else (if v.length ≥ format.length then v.take (format.length - 1) else v) ++ suf

/-- The function `formatString`. -/
def formatString (v format : GoString) : Except Fault GoString :=
  if format.length = 0 then .error (.invalidFormat format)
  else
    let v := if containsByte v 10 then (split 10 v).headD [] else v
    let lv := v.length
    let lf := format.length
    if lv = lf then .ok (makeSuf format v)
    else if lv > lf then .ok (makeSuf format (v.take lf))
    else match format.get? 1 with
      | none => .error .panicIndex
      | some c =>
        if c = 124 then
          let v := makeSuf format v
          let lv : Int := v.length
          do
            let leftPad ← goRepeat 32 (((lf : Int) - lv).tdiv 2)
            let rightPad ← goRepeat 32 ((lf : Int) - leftPad.length - lv)
            pure (leftPad ++ v ++ rightPad)
        else if c = 62 then
          let v := makeSuf format v
          do
            let pad ← goRepeat 32 ((lf : Int) - v.length)
            pure (pad ++ v)
        else if c = 60 then
          let v := makeSuf format v
          do
            let pad ← goRepeat 32 ((lf : Int) - v.length)
            pure (v ++ pad)
        else .error (.invalidStringFormat format)

/-- Outcome of `fmt.Sprintf("%d", v)`. -/
def sprintfD (E : Ext F J) : NumArg F → GoString
  | .int n => decimal n
  | .float f => E.fmtDFloat f

/-- The function `formatFloat`. -/
def formatFloat (E : Ext F J) (v : NumArg F) (format : GoString) : Except Fault GoString :=
  match split 46 format with
  | [_] => .ok (sprintfD E v)
  | [p0, p1] => .ok (E.fmtF p0.length p1.length v)
  | _ => .error (.invalidNumberFormat format)

/-- The function `formatCommaNumber`. -/
def formatCommaNumber (E : Ext F J) (v : NumArg F) : Except Fault GoString :=
  match v with
  | .float f => .ok (E.commaf f)
  | .int n => .ok (E.comma n)

/-- The function `formatBytesNumber`; an integer is converted with `uint64(n)`, which
wraps modulo `2^64`. -/
def formatBytesNumber (E : Ext F J) (v : NumArg F) : Except Fault GoString :=
  match v with
  | .float f => .ok (E.ibytes (E.toUint64 f))
  | .int n => .ok (E.ibytes (n % 2 ^ 64).toNat)

/-- The rule selection at the head of `formatNumber`: the `switch` on the token's second
character, and the rendering by the selected rule. -/
def renderNumber (E : Ext F J) (v : NumArg F) (format : GoString) : Except Fault GoString :=
  match format.get? 1 with
  | none => .error .panicIndex
  | some c =>
    if c = 48 ∨ c = 35 ∨ containsByte format 46 then formatFloat E v format
    else if c = 44 then formatCommaNumber E v
    else if c = 66 then formatBytesNumber E v
    else .error (.unknownNumberFormat format)

/-- The function `formatNumber`. -/
def formatNumber (E : Ext F J) (v : NumArg F) (format : GoString) : Except Fault GoString :=
  match renderNumber E v format with
  | .error e => .error e
  | .ok val =>
    if val.length = 0 then .ok (List.replicate format.length 32)
    else if val.length > format.length then .ok (List.replicate format.length 35)
    else if val.length < format.length then
      if format.get? 1 = some 48 then
        .ok (List.replicate (format.length - val.length) 48 ++ val)
      else .ok (val ++ List.replicate (format.length - val.length) 32)
    else .ok val

/-- The function `formatDataItem`. -/
def formatDataItem (E : Ext F J) (val : Value F) (format : GoString) : Except Fault GoString :=
  match val with
  | .missing => do
    let pad ← goRepeat 32 ((format.length : Int) - 1)
    pure (63 :: pad)
  | .null => do
    let pad ← goRepeat 32 ((format.length : Int) - 1)
    pure (63 :: pad)
  | .string s => formatString s format
  | .number f i =>
    if containsByte format 46 then formatNumber E (.float f) format
    else formatNumber E (.int i) format
  | .bool true => formatString (str "true") format
  | .bool false => formatString (str "false") format
  | .json => .error .invalidType

/-! ## util.go -/

/-- Removal of one trailing carriage return, as `bufio.ScanLines` does. -/
def dropCR (l : GoString) : GoString :=
  if l.getLast? = some 13 then l.dropLast else l

/-- The function `toLines`: the tokens of a `bufio.Scanner` with the default line splitter,
which cuts at each line feed, yields no token for an empty remainder at the end of the
input and refuses a line of `bufio.MaxScanTokenSize` bytes or more. -/
def toLines (body : GoString) : Except Fault (List GoString) :=
  let parts := split 10 body
  let parts := if parts.getLastD [] = [] then parts.dropLast else parts
  if parts.any (fun l => decide (65536 ≤ l.length)) then .error .tooLong
  else .ok (parts.map dropCR)

/-! ## report.go -/

/-- The struct `Report`. -/
structure Report (F : Type) where
  Name : GoString
  BodyLayout : GoString
  HeaderLayout : GoString
  FooterLayout : GoString
  RowsPerPage : Int
  bodyLines : List GoString
  headerLines : List GoString
  footerLines : List GoString
  accumulator : Acc F

/-- The struct `formatter`; `acc` is `none` for a nil map. -/
structure Formatter (F : Type) where
  bodyLines : List GoString
  acc : Option (Acc F)

/-- The function `New`. -/
def New (name header body footer : GoString) (rowsPerPage : Int) :
    Except Fault (Report F) := do
  let bodyLines ← toLines body
  let headerLines ← toLines header
  let footerLines ← toLines footer
  pure
    { Name := name, HeaderLayout := header, BodyLayout := body, FooterLayout := footer,
      RowsPerPage := rowsPerPage, bodyLines := bodyLines, headerLines := headerLines,
      footerLines := footerLines, accumulator := fun _ => none }

/-- The method `Report.newState`. -/
def Report.newState (r : Report F) (page : Int) (data row : Option J) (curRow : Nat) :
    Ctx F J :=
  { page := page, name := r.Name, currentRow := curRow, summary := r.accumulator,
    row := row, data := data }

/-- The method `isPictureLine`. -/
def isPictureLine (line : GoString) : Bool := containsAny line (str "@^")

/-- The method `countPictureFormats`. -/
def countPictureFormats (line : GoString) : Nat := countByte line 94 + countByte line 64

/-- The picture characters `@^<|>#.0,B:`. -/
def pictureChars : GoString := str "@^<|>#.0,B:"

/-- Whether the rune `c` is a picture character. -/
def picChar (c : Nat) : Bool := pictureChars.contains c

/-- Lower bound of the second byte of a UTF-8 encoding with first byte `b0` (the table
`acceptRanges` of Go's decoder). -/
def acceptLo (b0 : Nat) : Nat :=
  if b0 = 224 then 160 else if b0 = 240 then 144 else 128

/-- Upper bound of the second byte of a UTF-8 encoding with first byte `b0`. -/
def acceptHi (b0 : Nat) : Nat :=
  if b0 = 237 then 159 else if b0 = 244 then 143 else 191

/-- The rune that a `range` loop yields at the head of a non-empty string, with its width
in bytes: UTF-8 decoding, where a byte that does not start a well-formed encoding yields
U+FFFD with width 1. -/
def decodeRune : GoString → Nat × Nat
  | [] => (65533, 0)
  | b0 :: rest =>
    if b0 < 128 then (b0, 1)
    else if b0 < 194 then (65533, 1)
    else if b0 < 224 then
      match rest with
      | b1 :: _ =>
        if 128 ≤ b1 ∧ b1 ≤ 191 then (b0 % 32 * 64 + b1 % 64, 2) else (65533, 1)
      | _ => (65533, 1)
    else if b0 < 240 then
      match rest with
      | b1 :: b2 :: _ =>
        if acceptLo b0 ≤ b1 ∧ b1 ≤ acceptHi b0 ∧ 128 ≤ b2 ∧ b2 ≤ 191 then
          (b0 % 16 * 4096 + b1 % 64 * 64 + b2 % 64, 3)
        else (65533, 1)
      | _ => (65533, 1)
    else if b0 < 245 then
      match rest with
      | b1 :: b2 :: b3 :: _ =>
        if acceptLo b0 ≤ b1 ∧ b1 ≤ acceptHi b0 ∧ 128 ≤ b2 ∧ b2 ≤ 191 ∧ 128 ≤ b3 ∧ b3 ≤ 191 then
          (b0 % 8 * 262144 + b1 % 64 * 4096 + b2 % 64 * 64 + b3 % 64, 4)
        else (65533, 1)
      | _ => (65533, 1)
    else (65533, 1)

/-- The loop `for i, c := range line` of `picturesFromLine`, from byte offset `i` with
`rest` the bytes from there on; `ll` is `len(line)`.  Each iteration consumes one rune,
so `fuel` iterations suffice when `fuel` is at least the length of `rest`. -/
def picturesLoop (ll : Nat) :
    Nat → Nat → GoString → Bool → GoString → List GoString → List GoString
  | 0, _, _, _, _, picts => picts
  | fuel + 1, i, rest, inPicture, curPicture, picts =>
    match rest with
    | [] => picts
    | _ :: _ =>
      let c := (decodeRune rest).1
      let w := (decodeRune rest).2
      let inPicture := inPicture || c == 64
      if !inPicture then
        picturesLoop ll fuel (i + w) (rest.drop w) inPicture curPicture picts
      else if i = ll - 1 then
        picturesLoop ll fuel (i + w) (rest.drop w) false []
          (picts ++ [if picChar c then curPicture ++ [c] else curPicture])
      else if !picChar c then
        picturesLoop ll fuel (i + w) (rest.drop w) false [] (picts ++ [curPicture])
      else
        picturesLoop ll fuel (i + w) (rest.drop w) inPicture (curPicture ++ [c]) picts

/-- The method `picturesFromLine` (its error result is always nil). -/
def picturesFromLine (line : GoString) : List GoString :=
  picturesLoop line.length line.length 0 line false [] []

/-- The method `isCommentLine`. -/
def isCommentLine (line : GoString) : Bool := hasPrefix line (str "#")

/-- The method `isVariableLine`. -/
def isVariableLine (line : GoString) (numVars : Nat) : Bool :=
  (split 44 line).length = numVars

/-- The method `variablesFromLine`. -/
def variablesFromLine (E : Ext F J) (line : GoString) (numVars : Nat) :
    Except Fault (List GoString) :=
  let parts := split 44 line
  if parts.length ≠ numVars then .error .invalidVariableCount
  else .ok (parts.map E.trimSpace)

/-- The method `accumulate`: a nil map is replaced by a new one, a missing entry starts
at zero. -/
def accumulate (E : Ext F J) (acc : Option (Acc F)) (item : GoString) (val : F) :
    Option (Acc F) :=
  let name := trimPrefix item (str "row.")
  let m : Acc F := acc.getD (fun _ => none)
  some (Function.update m name (some (E.add ((m name).getD E.zero) val)))

/-- The loop `for i := range pictures` of `formatter.process`: the remaining pictures, the
variables at the same indices, the accumulator and the format line so far.  The result is
the accumulator afterwards and the substituted line or the error returned. -/
def substitute (E : Ext F J) (dj : Ctx F J) :
    List GoString → List GoString → Option (Acc F) → GoString →
      Option (Acc F) × Except Fault GoString
  | [], _, acc, fmtLine => (acc, .ok fmtLine)
  | _ :: _, [], acc, _ => (acc, .error .panicIndex)
  | p :: ps, v :: vs, acc, fmtLine =>
    let val := getDataItem E dj v
    let acc := match val with
      | .number f _ => if hasPrefix v (str "row.") then accumulate E acc v f else acc
      | _ => acc
    match formatDataItem E val p with
    | .error e => (acc, .error (.couldNotRender v p e))
    | .ok rendered => substitute E dj ps vs acc (replaceFirst fmtLine p rendered)

/-- What a call of `formatter.process` leaves behind: the formatter's accumulator, the
bytes in the writer and the error returned (`none` for nil). -/
structure Run (F : Type) where
  acc : Option (Acc F)
  out : GoString
  err : Option Fault

/-- The loop over `f.bodyLines` in `formatter.process`, with the local variables
`numVars`, `pictures` and `fmtLine`, the accumulator and the writer as state. -/
def processLines (E : Ext F J) (dj : Ctx F J) :
    List GoString → Nat → List GoString → GoString → Option (Acc F) → GoString → Run F
  | [], _, _, _, acc, w => ⟨acc, w, none⟩
  | line :: rest, numVars, pictures, fmtLine, acc, w =>
    if isCommentLine line then
      processLines E dj rest numVars pictures fmtLine acc w
    else if numVars = 0 ∧ isPictureLine line then
      processLines E dj rest (picturesFromLine line).length (picturesFromLine line) line acc w
    else if 0 < numVars ∧ isVariableLine line numVars then
      match variablesFromLine E line numVars with
      | .error e => ⟨acc, w, some (.invalidVariableLine e)⟩
      | .ok vars =>
        match substitute E dj pictures vars acc fmtLine with
        | (acc, .error e) => ⟨acc, w, some e⟩
        | (acc, .ok fmtLine) => processLines E dj rest 0 [] [] acc (w ++ fmtLine ++ [10])
    else
      processLines E dj rest numVars pictures fmtLine acc (w ++ line ++ [10])

/-- The method `formatter.process`, writing to a writer that holds `w`. -/
def Formatter.process (E : Ext F J) (f : Formatter F) (w : GoString) (row : Ctx F J) :
    Run F :=
  if E.marshals row then processLines E row f.bodyLines 0 [] [] f.acc w
  else ⟨f.acc, w, some .marshal⟩

/-- The method `formatter.processBytes`: the accumulator afterwards, and the bytes
rendered or the error. -/
def Formatter.processBytes (E : Ext F J) (f : Formatter F) (row : Ctx F J) :
    Option (Acc F) × Except Fault GoString :=
  let run := f.process E [] row
  match run.err with
  | some e => (run.acc, .error e)
  | none => (run.acc, .ok run.out)

/-- The layout a context is built for. -/
inductive Section
  | header
  | footer
  | body
  deriving DecidableEq, Repr

/-- A call of `Report.newState` in `Report.process`: the layout rendered with it and the
context built. -/
structure Call (F J : Type) where
  sec : Section
  ctx : Ctx F J

/-- The state of `Report.process`: the report (with its accumulator), the page counter,
the bytes written to `w`, and the contexts built so far, in order. -/
structure PState (F J : Type) where
  report : Report F
  page : Int
  out : GoString
  calls : List (Call F J)

/-- A step of `Report.process`: the state it leaves and the error with which the method
returns there (`none` while it goes on). -/
abbrev Step (F J : Type) := PState F J × Option Fault

/-- Sequencing with `if err != nil { return ... }`: `k` runs when `x` left no error. -/
def Step.andThen (x : Step F J) (k : PState F J → Step F J) : Step F J :=
  match x.2 with
  | some e => (x.1, some e)
  | none => k x.1

/-- Wrapping of the error of a step, as `fmt.Errorf("... processing error: %v", err)`. -/
def Step.wrap (wrapper : Fault → Fault) (x : Step F J) : Step F J :=
  (x.1, x.2.map wrapper)

/-- Rendering of the header or footer layout `lines` in `Report.process`: a formatter
without accumulator writing to `w`, on the context `ctx` that `newState` built. -/
def renderSection (E : Ext F J) (s : PState F J) (sec : Section) (lines : List GoString)
    (ctx : Ctx F J) : Step F J :=
  ({ s with out := (Formatter.process E ⟨lines, none⟩ s.out ctx).out,
            calls := s.calls ++ [⟨sec, ctx⟩] },
   (Formatter.process E ⟨lines, none⟩ s.out ctx).err)

/-- The page break at the head of the loop body of `Report.process`: the footer of the
page that ends (not before the first page), the increment of the page counter and the
header of the page that starts. -/
def breakPage (E : Ext F J) (data : Option J) (s : PState F J) (item : Nat)
    (row : Option J) : Step F J :=
  if s.report.HeaderLayout ≠ [] ∧
      (s.page = 0 ∨
        (0 < s.report.RowsPerPage ∧ (item : Int).tmod s.report.RowsPerPage = 0)) then
    Step.andThen
      (if s.report.FooterLayout ≠ [] ∧ s.page ≠ 0 then
        Step.wrap .footerProcessing
          (renderSection E s .footer s.report.footerLines
            (s.report.newState s.page data row item))
      else (s, none))
      (fun s =>
        Step.wrap .headerProcessing
          (renderSection E { s with page := s.page + 1 } .header s.report.headerLines
            (s.report.newState (s.page + 1) data row item)))
  else (s, none)

/-- The rendering of the body layout for one row in `Report.process`: the formatter shares
the accumulator of the report, and its output reaches `w` only when it returned no error. -/
def renderBody (E : Ext F J) (data : Option J) (s : PState F J) (item : Nat)
    (row : Option J) : Step F J :=
  let ctx := s.report.newState s.page data row item
  let res := Formatter.processBytes E ⟨s.report.bodyLines, some s.report.accumulator⟩ ctx
  let s := { s with
    report := { s.report with accumulator := res.1.getD s.report.accumulator },
    calls := s.calls ++ [⟨.body, ctx⟩] }
  match res.2 with
  | .error e => (s, some e)
  | .ok out => (if 0 < out.length then { s with out := s.out ++ out } else s, none)

/-- The body of the loop `for item, row := range rows` of `Report.process`. -/
def processRow (E : Ext F J) (data : Option J) (s : PState F J) (item : Nat)
    (row : Option J) : Step F J :=
  Step.andThen (breakPage E data s item row) (fun s => renderBody E data s item row)

/-- The loop `for item, row := range rows` of `Report.process`, from index `item`. -/
def processRows (E : Ext F J) (data : Option J) :
    List (Option J) → Nat → PState F J → Step F J
  | [], _, s => (s, none)
  | row :: rows, item, s =>
    Step.andThen (processRow E data s item row) (fun s => processRows E data rows (item + 1) s)

/-- The trailing footer of `Report.process`. -/
def trailingFooter (E : Ext F J) (data : Option J) (n : Nat) (s : PState F J) : Step F J :=
  if s.report.FooterLayout ≠ [] then
    Step.wrap .footerProcessing
      (renderSection E s .footer s.report.footerLines (s.report.newState s.page data none n))
  else (s, none)

/-- The method `Report.process` on a report built by `New` (its accumulator is a map, not
nil), writing to an empty writer: the final state and the error returned (`none` for nil). -/
def Report.process (E : Ext F J) (r : Report F) (data : Option J)
    (rows : List (Option J)) : Step F J :=
  Step.andThen (processRows E data rows 0 ⟨r, 0, [], []⟩) (trailingFooter E data rows.length)

/-! ## An instance of the collaborators

For evaluating the model on examples: `float64` values that are integers (on which
`float64` arithmetic is exact below `2^53`), rows that are flat JSON objects, ASCII text.
-/

/-- A flat JSON object: member names with their values. -/
abbrev FlatRow := List (GoString × Value Int)

/-- Removal of the backslash escapes of a `gjson` path component. -/
def unescape : GoString → GoString
  | 92 :: c :: rest => c :: unescape rest
  | c :: rest => c :: unescape rest
  | [] => []

/-- Lookup of the paths `report.page`, `report.name`, `report.current_row`,
`report.summary.<key>` and `row.<member>` in a context whose row is a flat object. -/
def flatGet (ctx : Ctx Int FlatRow) (path : GoString) : Value Int :=
  if path = str "report.page" then .number ctx.page ctx.page
  else if path = str "report.name" then .string ctx.name
  else if path = str "report.current_row" then .number ctx.currentRow ctx.currentRow
  else if hasPrefix path (str "report.summary.") then
    match ctx.summary (unescape (path.drop 15)) with
    | some f => .number f f
    | none => .missing
  else if hasPrefix path (str "row.") then
    match ctx.row with
    | some row => (row.lookup (path.drop 4)).getD .missing
    | none => .missing
  else .missing

/-- Whether a byte is ASCII white space. -/
def asciiSpace (b : Nat) : Bool := b = 32 ∨ (9 ≤ b ∧ b ≤ 13)

/-- Thousands grouping of a natural number, for at most `fuel + 1` groups. -/
def commaNat : Nat → Nat → GoString
  | 0, n => decimalNat n
  | fuel + 1, n =>
    if n < 1000 then decimalNat n
    else commaNat fuel (n / 1000) ++ [44, 48 + n % 1000 / 100, 48 + n % 100 / 10, 48 + n % 10]

/-- The instance: integer-valued floats, flat rows, ASCII white space.  `ibytes` is the
rendering of `humanize.IBytes` for arguments below 1024, and `toUint64` the conversion of
a non-negative value. -/
def flatExt : Ext Int FlatRow where
  zero := 0
  add := fun a b => a + b
  toUint64 := fun f => f.toNat
  fmtDFloat := fun f => str "%!d(float64=" ++ decimal f ++ str ")"
  fmtF := fun w p v =>
    match v with
    | .float f =>
      let body := decimal f ++ (if p = 0 then [] else 46 :: List.replicate p 48)
      List.replicate (w - body.length) 32 ++ body
    | .int n => str "%!f(int=" ++ decimal n ++ str ")"
  commaf := fun f => if f < 0 then 45 :: commaNat 6 f.natAbs else commaNat 6 f.natAbs
  comma := fun n => if n < 0 then 45 :: commaNat 6 n.natAbs else commaNat 6 n.natAbs
  ibytes := fun n => decimalNat n ++ str " B"
  trimSpace := fun s => ((s.dropWhile asciiSpace).reverse.dropWhile asciiSpace).reverse
  marshals := fun _ => true
  gjsonGet := flatGet

/-! ## Notions of the specification -/

/-- Picture tokens of the data model: an `@` followed by picture characters. -/
def isPictureToken : GoString → Bool
  | 64 :: rest => rest.all picChar
  | _ => false

/-- The part of a string before its first line feed (the whole string when it has none). -/
def firstLine (v : GoString) : GoString := v.takeWhile (fun b => b ≠ 10)

/-- The layout, page number and row index of a context built by `Report.process`. -/
structure Stamp where
  sec : Section
  page : Int
  currentRow : Nat
  deriving DecidableEq, Repr

/-- The stamp of a call. -/
def Call.stamp (c : Call F J) : Stamp := ⟨c.sec, c.ctx.page, c.ctx.currentRow⟩

/-- Whether `Report.process` breaks the page before the row at index `item`, in state `s`. -/
def pageBreak (s : PState F J) (item : Nat) : Bool :=
  decide (s.report.HeaderLayout ≠ [] ∧
    (s.page = 0 ∨ (0 < s.report.RowsPerPage ∧ (item : Int).tmod s.report.RowsPerPage = 0)))

/-- The stamps of the contexts that one iteration of the row loop builds when it completes. -/
def rowStamps (s : PState F J) (item : Nat) : List Stamp :=
  if pageBreak s item then
    (if s.report.FooterLayout ≠ [] ∧ s.page ≠ 0 then [⟨.footer, s.page, item⟩] else [])
      ++ [⟨.header, s.page + 1, item⟩, ⟨.body, s.page + 1, item⟩]
  else [⟨.body, s.page, item⟩]

/-- The part of the state of `Report.process` that the renderings never change: the
layouts and the page size. -/
def SameLayout (s s' : PState F J) : Prop :=
  s'.report.HeaderLayout = s.report.HeaderLayout ∧
  s'.report.FooterLayout = s.report.FooterLayout ∧
  s'.report.RowsPerPage = s.report.RowsPerPage

/-- The contexts that the page-boundary rule of the specification schedules for the body
row at index `i`, with `p` rows per page: at a multiple of `p` the footer of the page that
ends (not before the first row) and the header of the page that starts, then the row. -/
def rowSchedule (p i : Nat) : List Stamp :=
  (if i % p = 0 then
    (if i = 0 then [] else [⟨.footer, (i / p : Nat), i⟩]) ++ [⟨.header, (i / p + 1 : Nat), i⟩]
  else []) ++ [⟨.body, (i / p + 1 : Nat), i⟩]

/-- The schedule of the specification for `n` rows with `p` rows per page: the rows in
order, each with its page break, and the trailing footer on page `ceil(n/p)`. -/
def pageSchedule (p n : Nat) : List Stamp :=
  (List.range n).flatMap (rowSchedule p) ++ [⟨.footer, ((n + p - 1) / p : Nat), n⟩]

/-- A report as `New` builds it: a header with the page number, a body line with two
row fields and a footer with a summary field, two rows per page. -/
def demoReport : Report Int where
  Name := str "demo"
  HeaderLayout := str "Page @##\nreport.page"
  BodyLayout := str "@## @<<<\nrow.n,row.s"
  FooterLayout := str "@####\nreport.summary.n"
  RowsPerPage := 2
  headerLines := [str "Page @##", str "report.page"]
  bodyLines := [str "@## @<<<", str "row.n,row.s"]
  footerLines := [str "@####", str "report.summary.n"]
  accumulator := fun _ => none

/-- Three rows for `demoReport`. -/
def demoRows : List (Option FlatRow) :=
  [some [(str "n", .number 5 5), (str "s", .string (str "ab"))],
   some [(str "n", .number 7 7), (str "s", .string (str "cd"))],
   some [(str "n", .number 1 1), (str "s", .string (str "e"))]]

/-- The variables that `formatter.process` consumes from a layout, in order: the trimmed
field paths of the lines it takes as variable lines, starting with `numVars` pictures
awaiting one.  The classification of lines does not depend on the data. -/
def layoutVars (E : Ext F J) : List GoString → Nat → List GoString
  | [], _ => []
  | line :: rest, numVars =>
    if isCommentLine line then layoutVars E rest numVars
    else if numVars = 0 ∧ isPictureLine line then
      layoutVars E rest (picturesFromLine line).length
    else if 0 < numVars ∧ isVariableLine line numVars then
      (split 44 line).map E.trimSpace ++ layoutVars E rest 0
    else layoutVars E rest numVars

/-- The entry of an accumulator (a nil map has none). -/
def entry (acc : Option (Acc F)) (x : GoString) : Option F := (acc.getD (fun _ => none)) x

/-- The entry after one accumulation of `f`: a missing entry starts at zero. -/
def bump (E : Ext F J) (f : F) (a : Option F) : Option F := some (E.add (a.getD E.zero) f)

/-- The running sum of the specification: the `float64` sum, from zero and in row order, of
the values `val` of the first `k` rows. -/
def runningSum (E : Ext F J) (val : Option J → F) (rows : List (Option J)) (k : Nat) : F :=
  ((rows.take k).map val).foldl E.add E.zero

/-- The summary entry `x` that a context shows is the running sum over the rows before its
row index. -/
def ShowsSum (E : Ext F J) (val : Option J → F) (rows : List (Option J)) (x : GoString)
    (c : Call F J) : Prop :=
  (c.ctx.summary x).getD E.zero = runningSum E val rows c.ctx.currentRow

/-- The cumulative accumulator property for the outcome of `Report.process`: every context
built shows in `report.summary.x` the running sum over the rows before its row index, and
after a run without error the accumulator entry is the sum over all rows. -/
def Cumulative (E : Ext F J) (val : Option J → F) (rows : List (Option J)) (x : GoString)
    (res : Step F J) : Prop :=
  (∀ c ∈ res.1.calls, ShowsSum E val rows x c) ∧
  (res.2 = none →
    (res.1.report.accumulator x).getD E.zero = runningSum E val rows rows.length)

/-- A report as `New` builds it whose body layout references `row.x` twice. -/
def dupReport : Report Int where
  Name := str "dup"
  HeaderLayout := []
  BodyLayout := str "@## @##\nrow.x,row.x"
  FooterLayout := str "@####\nreport.summary.x"
  RowsPerPage := 20
  headerLines := []
  bodyLines := [str "@## @##", str "row.x,row.x"]
  footerLines := [str "@####", str "report.summary.x"]
  accumulator := fun _ => none

/-- One row in which `x` is 1. -/
def dupRows : List (Option FlatRow) := [some [(str "x", .number 1 1)]]

/-- The number at member `name` of a flat row (zero when there is none). -/
def flatField (name : GoString) : Option FlatRow → Int
  | some row =>
    match row.lookup name with
    | some (.number f _) => f
    | _ => 0
  | none => 0

/-- The tokenizer read byte by byte: `inPicture` and `curPicture` as in the loop of
`picturesFromLine`; the end of the line closes an open token. -/
def scan : GoString → Bool → GoString → List GoString
  | [], inPicture, curPicture => if inPicture then [curPicture] else []
  | c :: cs, inPicture, curPicture =>
    if inPicture || c == 64 then
      if picChar c then scan cs true (curPicture ++ [c])
      else curPicture :: scan cs false []
    else scan cs false []

/-- The tokens of a line in the words of the specification: no `@` at all for the empty
list; else the first `@` of the line starts the first token, which runs over picture
characters up to the end of the line or a character that is not one, and the rest of the
line after it holds the remaining tokens. -/
def Tokenizes : GoString → List GoString → Prop
  | line, [] => 64 ∉ line
  | line, t :: ts =>
    ∃ pre post, line = pre ++ t ++ post ∧ 64 ∉ pre ∧ t.head? = some 64 ∧
      (∀ c ∈ t, picChar c = true) ∧
      (post = [] ∨ ∃ c rest, post = c :: rest ∧ picChar c = false) ∧
      Tokenizes post ts

/-- Positional replacement in the words of the specification: the renderings are written,
in order, at the places of the tokens of the line (each token starts at the next `@` and
runs over the picture characters after it); every other character is copied. -/
def positional : GoString → List GoString → GoString
  | line, [] => line
  | line, r :: rs =>
    match line.dropWhile (fun b => b ≠ 64) with
    | [] => line
    | _ :: tail =>
      line.takeWhile (fun b => b ≠ 64) ++ r ++ positional (tail.dropWhile picChar) rs

/-- The renderings of the values of the variables `vs` in the tokens `ts`, all without
error. -/
def Renders (E : Ext F J) (dj : Ctx F J) : List GoString → List GoString → List GoString → Prop
  | [], [], [] => True
  | t :: ts, v :: vs, r :: rs =>
    formatDataItem E (getDataItem E dj v) t = .ok r ∧ Renders E dj ts vs rs
  | _, _, _ => False

/-- A context with a row of two strings. -/
def demoCtx : Ctx Int FlatRow where
  page := 1
  name := str "demo"
  currentRow := 0
  summary := fun _ => none
  row := some [(str "a", .string (str "p")), (str "b", .string (str "qq"))]
  data := none

/-- The `row` entry of a context of `Report.process` as the code sets it: the row at the
context's row index while rows are processed (also for the header and footer of a page
break), and nil in the trailing footer, whose row index is the number of rows. -/
def RowEntry (rows : List (Option J)) (c : Call F J) : Prop :=
  rows.get? c.ctx.currentRow = some c.ctx.row ∨
  (c.sec = .footer ∧ c.ctx.currentRow = rows.length ∧ c.ctx.row = none)

/-- A report as `New` builds it whose header layout references the numeric field `row.n`
and whose body layout does not. -/
def hdrReport : Report Int where
  Name := str "hdr"
  HeaderLayout := str "Row @##\nrow.n"
  BodyLayout := str "@<<<\nrow.s"
  FooterLayout := str "@####\nreport.summary.n"
  RowsPerPage := 2
  headerLines := [str "Row @##", str "row.n"]
  bodyLines := [str "@<<<", str "row.s"]
  footerLines := [str "@####", str "report.summary.n"]
  accumulator := fun _ => none

/-- The compiled lines of the layout that a context is built for. -/
def sectionLines (r : Report F) : Section → List GoString
  | .header => r.headerLines
  | .footer => r.footerLines
  | .body => r.bodyLines

/-- The text that `formatter.process` writes for a context of `Report.process`: the lines
of the context's layout rendered in that context, by a formatter that shares the
accumulator (the one the context shows) for the body and has none for header and footer. -/
def sectionText (E : Ext F J) (r : Report F) (c : Call F J) : GoString :=
  (Formatter.process E
    ⟨sectionLines r c.sec, if c.sec = .body then some c.ctx.summary else none⟩ [] c.ctx).out

/-- The writer of `Report.process` holds, in order, the text rendered for each context
built so far, and the compiled layouts are those of the report `r`. -/
def Written (E : Ext F J) (r : Report F) (s : PState F J) : Prop :=
  s.report.headerLines = r.headerLines ∧ s.report.footerLines = r.footerLines ∧
  s.report.bodyLines = r.bodyLines ∧ s.out = s.calls.flatMap (sectionText E r)

/-! # Properties -/

/-! ## Strings and padding -/

theorem picChar_lt {c : Nat} (h : picChar c = true) : c < 128 := by
  simp [picChar, pictureChars, str] at h
  omega

theorem length_byteToString {b : Nat} (h : b < 128) : byteToString b = [b] := by
  simp [byteToString, h]

theorem goRepeat_ok {b : Nat} {n : Int} {s : GoString} (h : goRepeat b n = .ok s) :
    0 ≤ n ∧ s = List.replicate n.toNat b := by
  unfold goRepeat at h
  split at h
  · cases h
  · simp only [Except.ok.injEq] at h
    exact ⟨by omega, h.symm⟩

theorem goRepeat_natCast (b n : Nat) : goRepeat b (n : Int) = .ok (List.replicate n b) := by
  simp [goRepeat]

theorem makeSuf_length_of_le {format v : GoString} (hl : format.getLastD 0 < 128)
    (hf : format ≠ []) (hv : format.length ≤ v.length) :
    (makeSuf format v).length = if containsAny [format.getLastD 0] (str "<>|") then v.length else format.length := by
  have : 0 < format.length := List.length_pos.mpr hf
  unfold makeSuf
  simp only [length_byteToString hl]
  split
  · rfl
  · simp [hv]; omega

theorem makeSuf_length_of_lt {format v : GoString} (hl : format.getLastD 0 < 128)
    (hv : v.length < format.length) :
    (makeSuf format v).length = if containsAny [format.getLastD 0] (str "<>|") then v.length else v.length + 1 := by
  unfold makeSuf
  simp only [length_byteToString hl]
  split
  · rfl
  · simp [Nat.not_le.mpr hv]

theorem makeSuf_length_le {format v : GoString} (hl : format.getLastD 0 < 128)
    (hv : v.length < format.length) : (makeSuf format v).length ≤ format.length := by
  rw [makeSuf_length_of_lt hl hv]; split <;> omega


theorem split_ne_nil (sep : Nat) (v : GoString) : split sep v ≠ [] := by
  cases v with
  | nil => simp [split]
  | cons c cs =>
    unfold split
    split
    · simp
    · split <;> simp

theorem head_split (sep : Nat) (v : GoString) :
    (split sep v).headD [] = v.takeWhile (fun b => b ≠ sep) := by
  induction v with
  | nil => rfl
  | cons c cs ih =>
    unfold split
    by_cases hc : c = sep
    · simp [hc]
    · simp only [hc, if_false]
      cases hs : split sep cs with
      | nil => exact absurd hs (split_ne_nil sep cs)
      | cons p ps => simp [hs] at ih; simp [List.takeWhile_cons, hc, ← ih]

theorem containsByte_firstLine (v : GoString) : containsByte (firstLine v) 10 = false := by
  unfold containsByte firstLine
  induction v with
  | nil => rfl
  | cons c cs ih =>
    by_cases hc : c = 10
    · simp [hc]
    · simp only [List.takeWhile_cons, ne_eq, hc, not_false_eq_true, decide_True, if_true]
      simp only [List.contains_cons, ih, Bool.or_false]
      simpa using fun h => hc h.symm

theorem firstLine_eq_self {v : GoString} (h : containsByte v 10 = false) : firstLine v = v := by
  unfold containsByte at h
  unfold firstLine
  rw [List.takeWhile_eq_self_iff]
  intro b hb
  simp only [ne_eq, decide_not, Bool.not_eq_true', decide_eq_false_iff_not]
  rintro rfl
  simp [hb] at h

theorem formatString_firstLine (v format : GoString) :
    formatString v format = formatString (firstLine v) format := by
  unfold formatString
  simp only [containsByte_firstLine, head_split]
  by_cases hv : containsByte v 10 = true
  · simp [hv, firstLine]
  · simp only [Bool.not_eq_true] at hv
    simp [hv, firstLine_eq_self hv]

/-- The value of `formatString` on a value without line feed that is shorter than the
token. -/
theorem formatString_short {v format : GoString} (hl : format.getLastD 0 < 128)
    (hnl : containsByte v 10 = false) (hlt : v.length < format.length) :
    formatString v format =
      match format.get? 1 with
      | none => .error .panicIndex
      | some c =>
        let u := makeSuf format v
        let k := format.length - u.length
        if c = 124 then .ok (List.replicate (k / 2) 32 ++ u ++ List.replicate (k - k / 2) 32)
        else if c = 62 then .ok (List.replicate k 32 ++ u)
        else if c = 60 then .ok (u ++ List.replicate k 32)
        else .error (.invalidStringFormat format) := by
  have hle := makeSuf_length_le hl hlt
  unfold formatString
  have h0 : format.length ≠ 0 := by omega
  simp only [h0, if_false, hnl, Bool.false_eq_true]
  have h1 : ¬ v.length = format.length := by omega
  have h2 : ¬ v.length > format.length := by omega
  simp only [h1, h2, if_false]
  cases format.get? 1 with
  | none => rfl
  | some c =>
    simp only
    generalize makeSuf format v = u at hle ⊢
    have e1 : ((format.length : Int) - (u.length : Int)) = ((format.length - u.length : Nat) : Int) := by omega
    have e2 : ((format.length - u.length : Nat) : Int).tdiv 2
        = (((format.length - u.length) / 2 : Nat) : Int) := by
      simp [Int.tdiv]
    have e3 : (format.length : Int) - (((format.length - u.length) / 2 : Nat) : Int) - u.length
        = ((format.length - u.length - (format.length - u.length) / 2 : Nat) : Int) := by
      omega
    split
    · simp only [e1, e2, goRepeat_natCast, bind, Except.bind, List.length_replicate, e3, pure,
        Except.pure]
    · split
      · simp only [e1, goRepeat_natCast, bind, Except.bind, pure, Except.pure]
      · split
        · simp only [e1, goRepeat_natCast, bind, Except.bind, pure, Except.pure]
        · rfl

theorem formatString_length {v format s : GoString} (hl : format.getLastD 0 < 128)
    (h : formatString v format = .ok s) : s.length = format.length := by
  rw [formatString_firstLine] at h
  have hnl := containsByte_firstLine v
  generalize firstLine v = u at h hnl
  rcases Nat.lt_or_ge u.length format.length with hlt | hge
  · rw [formatString_short hl hnl hlt] at h
    have hle := makeSuf_length_le hl hlt
    cases hg : format.get? 1 with
    | none => rw [hg] at h; cases h
    | some c =>
      rw [hg] at h
      simp only at h
      split at h
      · cases h; simp; omega
      · split at h
        · cases h; simp; omega
        · split at h
          · cases h; simp; omega
          · cases h
  · unfold formatString at h
    have hf : format ≠ [] := by
      intro h0; subst h0; simp at h
    have : 0 < format.length := List.length_pos.mpr hf
    have h0 : format.length ≠ 0 := by omega
    simp only [h0, if_false, hnl, Bool.false_eq_true] at h
    split at h
    · cases h
      rw [makeSuf_length_of_le hl hf (by omega)]
      split <;> omega
    · have h2 : u.length > format.length := by omega
      simp only [h2, if_true] at h
      cases h
      rw [makeSuf_length_of_le hl hf (by simp; omega)]
      split
      · simp; omega
      · rfl


/-! ## The value formatter -/

theorem getLastD_lt_of_isPictureToken {t : GoString} (h : isPictureToken t = true) :
    t.getLastD 0 < 128 := by
  have hall : ∀ c ∈ t, c < 128 := by
    unfold isPictureToken at h
    split at h
    · rename_i rest
      intro c hc
      rcases List.mem_cons.mp hc with rfl | hc
      · omega
      · exact picChar_lt (List.all_eq_true.mp h c hc)
    · cases h
  cases hg : t.getLast? with
  | none => simp [List.getLastD_eq_getLast?, hg]
  | some b =>
    rw [List.getLastD_eq_getLast?, hg]
    exact hall b (List.mem_of_getLast?_eq_some hg)

theorem formatNumber_length {E : Ext F J} {v : NumArg F} {format s : GoString}
    (h : formatNumber E v format = .ok s) : s.length = format.length := by
  unfold formatNumber at h
  split at h
  · cases h
  · split at h
    · cases h; simp
    · split at h
      · cases h; simp
      · split at h
        · split at h <;> (cases h; simp; omega)
        · cases h; omega

theorem formatMissing_length {format s : GoString}
    (h : (do let pad ← goRepeat 32 ((format.length : Int) - 1); pure (63 :: pad) : Except Fault GoString) = .ok s) :
    s.length = format.length := by
  cases hp : goRepeat 32 ((format.length : Int) - 1) with
  | error e => rw [hp] at h; cases h
  | ok pad =>
    rw [hp] at h
    cases h
    obtain ⟨h0, rfl⟩ := goRepeat_ok hp
    simp
    omega

/-- C1: for a picture token `T` and any value `V`, a rendering that `formatDataItem` returns
without error has exactly the byte length of `T`. -/
theorem formatDataItem_length (E : Ext F J) (V : Value F) (T s : GoString)
    (hT : isPictureToken T = true) (h : formatDataItem E V T = .ok s) :
    s.length = T.length := by
  have hl := getLastD_lt_of_isPictureToken hT
  unfold formatDataItem at h
  split at h
  · exact formatMissing_length h
  · exact formatMissing_length h
  · exact formatString_length hl h
  · split at h <;> exact formatNumber_length h
  · exact formatString_length hl h
  · exact formatString_length hl h
  · cases h

theorem formatDataItem_length_witness :
    isPictureToken (str "@>>>>:") = true ∧
    formatDataItem flatExt (.string (str "12")) (str "@>>>>:") = .ok (str "   12:") ∧
    (str "   12:").length = (str "@>>>>:").length :=
  ⟨by decide, by decide, formatDataItem_length flatExt (.string (str "12")) _ _ (by decide) (by decide)⟩

/-! ## Pagination -/

theorem Step.andThen_ok {x : Step F J} {k : PState F J → Step F J}
    (h : (Step.andThen x k).2 = none) :
    x.2 = none ∧ (k x.1).2 = none ∧ Step.andThen x k = k x.1 := by
  unfold Step.andThen at h ⊢
  cases hx : x.2 with
  | some e => rw [hx] at h; cases h
  | none => rw [hx] at h; exact ⟨rfl, h, rfl⟩

theorem Step.wrap_fst (wrapper : Fault → Fault) (x : Step F J) :
    (Step.wrap wrapper x).1 = x.1 := rfl

theorem Step.wrap_ok {wrapper : Fault → Fault} {x : Step F J}
    (h : (Step.wrap wrapper x).2 = none) : x.2 = none := by
  unfold Step.wrap at h
  cases hx : x.2 with
  | some e => rw [hx] at h; cases h
  | none => rfl

theorem breakPage_ok (E : Ext F J) (data : Option J) (s : PState F J) (item : Nat)
    (row : Option J) (hok : (breakPage E data s item row).2 = none) :
    let s' := (breakPage E data s item row).1
    s'.report = s.report ∧
    s'.page = (if pageBreak s item then s.page + 1 else s.page) ∧
    s'.calls.map Call.stamp = s.calls.map Call.stamp ++
      (if pageBreak s item then
        (if s.report.FooterLayout ≠ [] ∧ s.page ≠ 0 then [⟨.footer, s.page, item⟩] else [])
          ++ [⟨.header, s.page + 1, item⟩]
      else []) := by
  unfold breakPage at hok ⊢
  unfold pageBreak
  by_cases hb : s.report.HeaderLayout ≠ [] ∧
    (s.page = 0 ∨ (0 < s.report.RowsPerPage ∧ (item : Int).tmod s.report.RowsPerPage = 0))
  · rw [if_pos hb] at hok ⊢
    rw [decide_eq_true hb]
    obtain ⟨-, -, h3⟩ := Step.andThen_ok hok
    rw [h3]
    by_cases hfo : s.report.FooterLayout ≠ [] ∧ s.page ≠ 0
    · rw [if_pos hfo, if_pos hfo]
      simp [Step.wrap, renderSection, Call.stamp, Report.newState]
    · rw [if_neg hfo, if_neg hfo]
      simp [Step.wrap, renderSection, Call.stamp, Report.newState]
  · rw [if_neg hb, decide_eq_false hb]
    simp

theorem renderBody_ok (E : Ext F J) (data : Option J) (s : PState F J) (item : Nat)
    (row : Option J) (hok : (renderBody E data s item row).2 = none) :
    let s' := (renderBody E data s item row).1
    SameLayout s s' ∧ s'.page = s.page ∧
    s'.calls.map Call.stamp = s.calls.map Call.stamp ++ [⟨.body, s.page, item⟩] := by
  unfold renderBody at hok ⊢
  simp only at hok ⊢
  split at hok
  · cases hok
  · rename_i out hout
    simp only [hout]
    split <;> simp [SameLayout, Call.stamp, Report.newState]

/-- One completed iteration of the row loop: the layouts and the page size are unchanged,
the page counter advances at a page break, and the contexts built are those of
`rowStamps`. -/
theorem processRow_ok (E : Ext F J) (data : Option J) (s : PState F J) (item : Nat)
    (row : Option J) (hok : (processRow E data s item row).2 = none) :
    let s' := (processRow E data s item row).1
    SameLayout s s' ∧
    s'.page = (if pageBreak s item then s.page + 1 else s.page) ∧
    s'.calls.map Call.stamp = s.calls.map Call.stamp ++ rowStamps s item := by
  unfold processRow at hok ⊢
  obtain ⟨h1, h2, h3⟩ := Step.andThen_ok hok
  rw [h3]
  obtain ⟨a1, a2, a3⟩ := breakPage_ok E data s item row h1
  obtain ⟨b1, b2, b3⟩ := renderBody_ok E data _ item row h2
  simp only at a1 a2 a3 b1 b2 b3 ⊢
  refine ⟨?_, ?_, ?_⟩
  · unfold SameLayout at b1 ⊢
    rw [a1] at b1
    exact b1
  · rw [b2, a2]
  · rw [b3, a3, a2]
    unfold rowStamps
    split <;> simp

theorem ceilDiv_of_mod_eq_zero {p n : Nat} (hp : 0 < p) (h : n % p = 0) :
    (n + p - 1) / p = n / p := by
  obtain ⟨q, rfl⟩ := Nat.dvd_of_mod_eq_zero h
  have h2 : p * q + p - 1 = p * q + (p - 1) := by
    generalize p * q = z
    omega
  rw [h2, Nat.mul_add_div hp, Nat.div_eq_of_lt (show p - 1 < p by omega),
    Nat.mul_div_cancel_left q hp]
  rfl

theorem ceilDiv_of_mod_ne_zero {p n : Nat} (hp : 0 < p) (h : n % p ≠ 0) :
    (n + p - 1) / p = n / p + 1 := by
  have h1 := Nat.div_add_mod n p
  have h3 := Nat.mod_lt n hp
  have h2 : n + p - 1 = p * (n / p) + (p + (n % p - 1)) := by
    generalize p * (n / p) = z at h1
    omega
  rw [h2, Nat.mul_add_div hp, Nat.add_div_left _ hp,
    Nat.div_eq_of_lt (show n % p - 1 < p by omega)]

theorem ceilDiv_succ {p : Nat} (n : Nat) (hp : 0 < p) : (n + 1 + p - 1) / p = n / p + 1 := by
  have h2 : n + 1 + p - 1 = n + p := by omega
  rw [h2, Nat.add_div_right _ hp]

theorem ceilDiv_eq_zero {p n : Nat} (hp : 0 < p) (h : (n + p - 1) / p = 0) : n = 0 := by
  by_contra hn
  have : p ≤ n + p - 1 := by omega
  have := Nat.div_pos this hp
  omega

/-- Under the invariant of the row loop (the page counter is `ceil(item/p)`), an iteration
builds the contexts of the schedule. -/
theorem rowStamps_eq_rowSchedule {s : PState F J} {p item : Nat} (hp : 0 < p)
    (hh : s.report.HeaderLayout ≠ []) (hf : s.report.FooterLayout ≠ [])
    (hrp : s.report.RowsPerPage = p) (hpage : s.page = ((item + p - 1) / p : Nat)) :
    pageBreak s item = decide (item % p = 0) ∧ rowStamps s item = rowSchedule p item := by
  have hbreak : pageBreak s item = decide (item % p = 0) := by
    unfold pageBreak
    rw [hrp, ← Int.ofNat_tmod]
    apply decide_eq_decide.mpr
    constructor
    · rintro ⟨-, h | ⟨-, h⟩⟩
      · rw [hpage] at h
        have := ceilDiv_eq_zero hp (Int.ofNat_eq_zero.mp h)
        subst this
        exact Nat.zero_mod p
      · exact Int.ofNat_eq_zero.mp h
    · intro hm
      exact ⟨hh, Or.inr ⟨by omega, by rw [hm]; rfl⟩⟩
  refine ⟨hbreak, ?_⟩
  unfold rowStamps rowSchedule
  rw [hbreak]
  by_cases hm : item % p = 0
  · simp only [hm, decide_True, if_true]
    rw [hpage, ceilDiv_of_mod_eq_zero hp hm]
    by_cases h0 : item = 0
    · subst h0; simp
    · have : 0 < item / p := by
        have h1 := Nat.div_add_mod item p
        rw [hm] at h1
        rcases Nat.eq_zero_or_pos (item / p) with hz | hz
        · rw [hz] at h1; omega
        · exact hz
      have hne : ((item / p : Nat) : Int) ≠ 0 := by omega
      rw [if_pos ⟨hf, hne⟩, if_neg h0]
      rfl
  · simp only [hm, decide_False, if_false]
    rw [hpage, ceilDiv_of_mod_ne_zero hp hm]
    simp

theorem processRows_ok (E : Ext F J) (data : Option J) (p : Nat) (hp : 0 < p)
    (rows : List (Option J)) :
    ∀ (item : Nat) (s : PState F J), s.report.HeaderLayout ≠ [] → s.report.FooterLayout ≠ [] →
      s.report.RowsPerPage = p → s.page = ((item + p - 1) / p : Nat) →
      (processRows E data rows item s).2 = none →
      SameLayout s (processRows E data rows item s).1 ∧
      (processRows E data rows item s).1.page = ((item + rows.length + p - 1) / p : Nat) ∧
      (processRows E data rows item s).1.calls.map Call.stamp =
        s.calls.map Call.stamp ++ (List.range' item rows.length).flatMap (rowSchedule p) := by
  induction rows with
  | nil =>
    intro item s _ _ _ hpage _
    simp [processRows, SameLayout, hpage]
  | cons row rows ih =>
    intro item s hh hf hrp hpage hok
    unfold processRows at hok ⊢
    obtain ⟨h1, h2, h3⟩ := Step.andThen_ok hok
    rw [h3]
    obtain ⟨⟨a1, a2, a3⟩, b, c⟩ := processRow_ok E data s item row h1
    obtain ⟨hbreak, hst⟩ := rowStamps_eq_rowSchedule hp hh hf hrp hpage
    have hpage' : (processRow E data s item row).1.page = ((item + 1 + p - 1) / p : Nat) := by
      rw [b, hbreak, hpage, ceilDiv_succ item hp]
      by_cases hm : item % p = 0
      · simp [hm, ceilDiv_of_mod_eq_zero hp hm]
      · simp [hm, ceilDiv_of_mod_ne_zero hp hm]
    obtain ⟨⟨d1, d2, d3⟩, e, f⟩ := ih (item + 1) _ (a1 ▸ hh) (a2 ▸ hf) (a3.trans hrp) hpage' h2
    refine ⟨⟨d1.trans a1, d2.trans a2, d3.trans a3⟩, ?_, ?_⟩
    · rw [e]
      congr 2
      simp only [List.length_cons]
      omega
    · rw [f, c, hst]
      simp [List.range'_succ]

theorem countP_header_rowSchedule (p i : Nat) :
    (rowSchedule p i).countP (fun x => decide (x.sec = Section.header))
      = if i % p = 0 then 1 else 0 := by
  unfold rowSchedule
  by_cases hm : i % p = 0 <;> by_cases h0 : i = 0 <;> simp [hm, h0, List.countP_cons]

theorem countP_footer_rowSchedule (p i : Nat) :
    (rowSchedule p i).countP (fun x => decide (x.sec = Section.footer))
      = if i % p = 0 ∧ i ≠ 0 then 1 else 0 := by
  unfold rowSchedule
  by_cases hm : i % p = 0 <;> by_cases h0 : i = 0 <;> simp [hm, h0, List.countP_cons]

theorem countP_header_schedule {p : Nat} (hp : 0 < p) (n : Nat) :
    ((List.range n).flatMap (rowSchedule p)).countP (fun x => decide (x.sec = Section.header))
      = (n + p - 1) / p := by
  induction n with
  | zero => simp [Nat.div_eq_of_lt (show p - 1 < p by omega)]
  | succ n ih =>
    rw [List.range_succ, List.flatMap_append, List.countP_append, ih, ceilDiv_succ n hp]
    simp only [List.flatMap_cons, List.flatMap_nil, List.append_nil, countP_header_rowSchedule]
    by_cases hm : n % p = 0
    · simp [hm, ceilDiv_of_mod_eq_zero hp hm]
    · simp [hm, ceilDiv_of_mod_ne_zero hp hm]

theorem countP_footer_schedule {p : Nat} (hp : 0 < p) (n : Nat) :
    ((List.range n).flatMap (rowSchedule p)).countP (fun x => decide (x.sec = Section.footer))
      = (n + p - 1) / p - 1 := by
  induction n with
  | zero => simp [Nat.div_eq_of_lt (show p - 1 < p by omega)]
  | succ n ih =>
    rw [List.range_succ, List.flatMap_append, List.countP_append, ih, ceilDiv_succ n hp]
    simp only [List.flatMap_cons, List.flatMap_nil, List.append_nil, countP_footer_rowSchedule]
    by_cases hm : n % p = 0
    · rw [ceilDiv_of_mod_eq_zero hp hm]
      by_cases h0 : n = 0
      · subst h0; simp
      · have : 0 < n / p := by
          have h1 := Nat.div_add_mod n p
          rw [hm] at h1
          rcases Nat.eq_zero_or_pos (n / p) with hz | hz
          · rw [hz] at h1; omega
          · exact hz
        rw [if_pos ⟨hm, h0⟩]
        omega
    · simp [hm, ceilDiv_of_mod_ne_zero hp hm]

/-- A run of `Report.process` that returns no error builds the whole page schedule, with
`ceil(N/p)` headers and footers. -/
theorem process_schedule_ok (E : Ext F J) (r : Report F) (data : Option J)
    (rows : List (Option J)) (p : Nat) (hrows : rows ≠ []) (hh : r.HeaderLayout ≠ [])
    (hf : r.FooterLayout ≠ []) (hp : 0 < p) (hrp : r.RowsPerPage = p)
    (hok : (r.process E data rows).2 = none) :
    (r.process E data rows).1.calls.map Call.stamp = pageSchedule p rows.length ∧
    ((r.process E data rows).1.calls.map Call.stamp).countP
      (fun x => decide (x.sec = Section.header)) = (rows.length + p - 1) / p ∧
    ((r.process E data rows).1.calls.map Call.stamp).countP
      (fun x => decide (x.sec = Section.footer)) = (rows.length + p - 1) / p := by
  have hsched : (r.process E data rows).1.calls.map Call.stamp = pageSchedule p rows.length := by
    unfold Report.process at hok ⊢
    obtain ⟨h1, h2, h3⟩ := Step.andThen_ok hok
    rw [h3]
    have h0 : ((0 : Int)) = ((0 + p - 1) / p : Nat) := by
      rw [Nat.div_eq_of_lt (by omega)]; rfl
    obtain ⟨⟨a1, a2, a3⟩, b, c⟩ :=
      processRows_ok E data p hp rows 0 ⟨r, 0, [], []⟩ hh hf hrp h0 h1
    simp only at a2
    unfold trailingFooter
    rw [if_pos (a2 ▸ hf)]
    simp only [Step.wrap_fst, renderSection, List.map_append, c, pageSchedule,
      List.range_eq_range', List.map_nil, List.nil_append, List.map_cons, Call.stamp,
      Report.newState, b, Nat.zero_add]
  refine ⟨hsched, ?_, ?_⟩
  · rw [hsched, pageSchedule, List.countP_append, countP_header_schedule hp]
    simp [List.countP_cons]
  · rw [hsched, pageSchedule, List.countP_append, countP_footer_schedule hp]
    have : 0 < (rows.length + p - 1) / p := by
      have hl : 0 < rows.length := List.length_pos.mpr hrows
      exact Nat.div_pos (by omega) hp
    simp [List.countP_cons]
    omega

/-! ## The accumulator -/

theorem hasPrefix_append (pre s : GoString) : hasPrefix (pre ++ s) pre = true := by
  unfold hasPrefix
  rw [List.isPrefixOf_iff_prefix]
  exact List.prefix_append pre s

theorem trimPrefix_append (pre s : GoString) : trimPrefix (pre ++ s) pre = s := by
  unfold trimPrefix
  rw [hasPrefix_append, if_pos rfl, List.drop_left]

theorem eq_append_of_hasPrefix {pre v : GoString} (h : hasPrefix v pre = true) :
    v = pre ++ trimPrefix v pre := by
  unfold trimPrefix
  rw [h, if_pos rfl]
  unfold hasPrefix at h
  rw [List.isPrefixOf_iff_prefix] at h
  obtain ⟨t, rfl⟩ := h
  rw [List.drop_left]

theorem entry_accumulate_self (E : Ext F J) (acc : Option (Acc F)) (x : GoString) (f : F) :
    entry (accumulate E acc (str "row." ++ x) f) x = bump E f (entry acc x) := by
  unfold accumulate entry bump
  simp [trimPrefix_append]

theorem entry_accumulate_other (E : Ext F J) (acc : Option (Acc F)) {v x : GoString} (f : F)
    (hv : hasPrefix v (str "row.") = true) (hne : v ≠ str "row." ++ x) :
    entry (accumulate E acc v f) x = entry acc x := by
  unfold accumulate entry
  have : x ≠ trimPrefix v (str "row.") := by
    intro h
    apply hne
    rw [h]
    exact eq_append_of_hasPrefix hv
  simp [Function.update_noteq this]

/-- The accumulator entry `x` after the substitution loop: one accumulation for each
occurrence of the path `row.x` among the variables. -/
theorem substitute_entry (E : Ext F J) (dj : Ctx F J) (x : GoString) (f : F)
    (hnum : ∃ i, getDataItem E dj (str "row." ++ x) = .number f i) :
    ∀ (ps vs : List GoString) (acc : Option (Acc F)) (line : GoString) (acc' : Option (Acc F))
      (line' : GoString), ps.length = vs.length →
      substitute E dj ps vs acc line = (acc', .ok line') →
      entry acc' x = (bump E f)^[vs.count (str "row." ++ x)] (entry acc x) := by
  intro ps
  induction ps with
  | nil =>
    intro vs acc line acc' line' hlen h
    have : vs = [] := List.length_eq_zero.mp hlen.symm
    subst this
    simp [substitute] at h
    simp [h.1]
  | cons p ps ih =>
    intro vs acc line acc' line' hlen h
    cases vs with
    | nil => simp at hlen
    | cons v vs =>
      unfold substitute at h
      simp only at h
      split at h
      · cases h
      · rename_i rendered hr
        have hlen' : ps.length = vs.length := by simpa using hlen
        have := ih vs _ _ acc' line' hlen' h
        rw [this]
        by_cases hv : v = str "row." ++ x
        · subst hv
          obtain ⟨i, hi⟩ := hnum
          rw [hi]
          simp only [hasPrefix_append, if_true, List.count_cons_self, Function.iterate_succ,
            Function.comp_apply, entry_accumulate_self]
        · rw [List.count_cons_of_ne (Ne.symm hv)]
          congr 1
          split
          · split
            · rename_i hp
              exact entry_accumulate_other E acc _ hp hv
            · rfl
          · rfl

/-- The accumulator entry `x` after a call of `formatter.process` that returns no error:
one accumulation for each reference to `row.x` in the consumed variable lines. -/
theorem processLines_entry (E : Ext F J) (dj : Ctx F J) (x : GoString) (f : F)
    (hnum : ∃ i, getDataItem E dj (str "row." ++ x) = .number f i) :
    ∀ (lines : List GoString) (numVars : Nat) (pictures : List GoString) (fmtLine : GoString)
      (acc : Option (Acc F)) (w : GoString), numVars = pictures.length →
      (processLines E dj lines numVars pictures fmtLine acc w).err = none →
      entry (processLines E dj lines numVars pictures fmtLine acc w).acc x =
        (bump E f)^[(layoutVars E lines numVars).count (str "row." ++ x)] (entry acc x) := by
  intro lines
  induction lines with
  | nil =>
    intro numVars pictures fmtLine acc w _ _
    simp [processLines, layoutVars]
  | cons line rest ih =>
    intro numVars pictures fmtLine acc w hnv hok
    unfold processLines at hok ⊢
    unfold layoutVars
    by_cases hc : isCommentLine line = true
    · rw [if_pos hc] at hok ⊢
      rw [if_pos hc]
      exact ih _ _ _ _ _ hnv hok
    · rw [if_neg hc] at hok ⊢
      rw [if_neg hc]
      by_cases hp : numVars = 0 ∧ isPictureLine line = true
      · rw [if_pos hp] at hok ⊢
        rw [if_pos hp]
        exact ih _ _ _ _ _ rfl hok
      · rw [if_neg hp] at hok ⊢
        rw [if_neg hp]
        by_cases hv : 0 < numVars ∧ isVariableLine line numVars = true
        · rw [if_pos hv] at hok ⊢
          rw [if_pos hv]
          have hlen : (split 44 line).length = numVars := by
            simpa [isVariableLine] using hv.2
          have hvars : variablesFromLine E line numVars = .ok ((split 44 line).map E.trimSpace) := by
            simp [variablesFromLine, hlen]
          rw [hvars] at hok ⊢
          simp only at hok ⊢
          cases hs : substitute E dj pictures ((split 44 line).map E.trimSpace) acc fmtLine with
          | mk acc1 res =>
            cases res with
            | error e => rw [hs] at hok; cases hok
            | ok l =>
              rw [hs] at hok
              simp only at hok ⊢
              rw [ih 0 [] [] acc1 _ rfl hok,
                substitute_entry E dj x f hnum _ _ _ _ _ _ (by simp [← hnv, hlen]) hs,
                List.count_append, Nat.add_comm, Function.iterate_add_apply]
        · rw [if_neg hv] at hok ⊢
          rw [if_neg hv]
          exact ih _ _ _ _ _ hnv hok

theorem Step.andThen_cases (x : Step F J) (k : PState F J → Step F J) :
    (x.2 ≠ none ∧ Step.andThen x k = x) ∨ (x.2 = none ∧ Step.andThen x k = k x.1) := by
  unfold Step.andThen
  obtain ⟨s, e⟩ := x
  cases e with
  | some e => left; exact ⟨by simp, rfl⟩
  | none => right; exact ⟨rfl, rfl⟩

/-- Header and footer renderings leave the report untouched, and every context they build
comes from `newState` on it. -/
theorem renderSection_frame (E : Ext F J) (s : PState F J) (sec : Section)
    (lines : List GoString) (page : Int) (data row : Option J) (item : Nat)
    (wrapper : Fault → Fault) :
    let res := Step.wrap wrapper
      (renderSection E s sec lines (s.report.newState page data row item))
    res.1.report = s.report ∧ res.1.page = s.page ∧
    res.1.calls = s.calls ++ [⟨sec, s.report.newState page data row item⟩] :=
  ⟨rfl, rfl, rfl⟩

theorem breakPage_frame (E : Ext F J) (data : Option J) (s : PState F J) (item : Nat)
    (row : Option J) :
    (breakPage E data s item row).1.report = s.report ∧
    ∀ c ∈ (breakPage E data s item row).1.calls,
      c ∈ s.calls ∨ ∃ sec page, c = ⟨sec, s.report.newState page data row item⟩ := by
  unfold breakPage
  split
  · rcases Step.andThen_cases
      (if s.report.FooterLayout ≠ [] ∧ s.page ≠ 0 then
        Step.wrap .footerProcessing
          (renderSection E s .footer s.report.footerLines
            (s.report.newState s.page data row item))
      else (s, none))
      (fun s =>
        Step.wrap .headerProcessing
          (renderSection E { s with page := s.page + 1 } .header s.report.headerLines
            (s.report.newState (s.page + 1) data row item))) with ⟨_, h⟩ | ⟨_, h⟩
    · rw [h]
      split
      · refine ⟨rfl, ?_⟩
        intro c hc
        simp only [Step.wrap, renderSection, List.mem_append, List.mem_singleton] at hc
        rcases hc with hc | hc
        · exact Or.inl hc
        · exact Or.inr ⟨_, _, hc⟩
      · exact ⟨rfl, fun c hc => Or.inl hc⟩
    · rw [h]
      split
      · refine ⟨rfl, ?_⟩
        intro c hc
        simp only [Step.wrap, renderSection, List.mem_append, List.mem_singleton] at hc
        rcases hc with (hc | hc) | hc
        · exact Or.inl hc
        · exact Or.inr ⟨_, _, hc⟩
        · exact Or.inr ⟨_, _, hc⟩
      · refine ⟨rfl, ?_⟩
        intro c hc
        simp only [Step.wrap, renderSection, List.mem_append, List.mem_singleton] at hc
        rcases hc with hc | hc
        · exact Or.inl hc
        · exact Or.inr ⟨_, _, hc⟩
  · exact ⟨rfl, fun c hc => Or.inl hc⟩

theorem renderBody_calls (E : Ext F J) (data : Option J) (s : PState F J) (item : Nat)
    (row : Option J) :
    (renderBody E data s item row).1.calls =
      s.calls ++ [⟨.body, s.report.newState s.page data row item⟩] ∧
    (renderBody E data s item row).1.report.bodyLines = s.report.bodyLines := by
  unfold renderBody
  simp only
  split
  · exact ⟨rfl, rfl⟩
  · split <;> exact ⟨rfl, rfl⟩

/-- The accumulator entry `x` after the body of a row rendered without error, when the
body layout references `row.x` once. -/
theorem renderBody_entry (E : Ext F J) (data : Option J) (s : PState F J) (item : Nat)
    (row : Option J) (x : GoString) (f : F)
    (honce : (layoutVars E s.report.bodyLines 0).count (str "row." ++ x) = 1)
    (hnum : ∃ i, getDataItem E (s.report.newState s.page data row item) (str "row." ++ x)
      = .number f i)
    (hok : (renderBody E data s item row).2 = none) :
    ((renderBody E data s item row).1.report.accumulator x).getD E.zero =
      E.add ((s.report.accumulator x).getD E.zero) f := by
  unfold renderBody at hok ⊢
  simp only at hok ⊢
  have key : ∀ res : Option (Acc F) × Except Fault GoString,
      res = Formatter.processBytes E ⟨s.report.bodyLines, some s.report.accumulator⟩
        (s.report.newState s.page data row item) →
      (∃ out, res.2 = .ok out) →
      entry res.1 x = some (E.add ((s.report.accumulator x).getD E.zero) f) := by
    intro res hres ⟨out, hout⟩
    subst hres
    unfold Formatter.processBytes Formatter.process at hout ⊢
    by_cases hm : E.marshals (s.report.newState s.page data row item) = true
    · simp only [hm, if_true] at hout ⊢
      have herr : (processLines E (s.report.newState s.page data row item) s.report.bodyLines
          0 [] [] (some s.report.accumulator) []).err = none := by
        cases he : (processLines E (s.report.newState s.page data row item)
            s.report.bodyLines 0 [] [] (some s.report.accumulator) []).err with
        | none => rfl
        | some e => rw [he] at hout; cases hout
      have := processLines_entry E _ x f hnum _ 0 [] [] (some s.report.accumulator) [] rfl herr
      rw [honce] at this
      rw [herr]
      simp only
      rw [this]
      rfl
    · simp [hm] at hout
  split at hok
  · cases hok
  · rename_i out hout
    have := key _ rfl ⟨out, hout⟩
    unfold entry at this
    cases hacc : (Formatter.processBytes E ⟨s.report.bodyLines, some s.report.accumulator⟩
        (s.report.newState s.page data row item)).1 with
    | none => rw [hacc] at this; cases this
    | some a =>
      rw [hacc] at this
      simp only [Option.getD_some] at this
      split <;> simp [this]

theorem runningSum_succ (E : Ext F J) (val : Option J → F) (pre : List (Option J))
    (row : Option J) (rest : List (Option J)) :
    runningSum E val (pre ++ row :: rest) (pre.length + 1) =
      E.add (runningSum E val (pre ++ row :: rest) pre.length) (val row) := by
  unfold runningSum
  have h1 : (pre ++ row :: rest).take pre.length = pre := List.take_left _ _
  have h2 : (pre ++ row :: rest).take (pre.length + 1) = pre ++ [row] := by
    have : pre ++ row :: rest = (pre ++ [row]) ++ rest := by simp
    rw [this]
    exact List.take_left' (by simp)
  rw [h1, h2]
  simp

/-- One iteration of the row loop keeps the invariant for the accumulator entry `x`: the
contexts it builds show the running sum over the rows before, and when it completes the
entry has grown by the value of the row. -/
theorem processRow_cumulative (E : Ext F J) (data : Option J) (x : GoString)
    (val : Option J → F) (pre : List (Option J)) (row : Option J) (rest : List (Option J))
    (s : PState F J)
    (honce : (layoutVars E s.report.bodyLines 0).count (str "row." ++ x) = 1)
    (hnum : ∀ ctx : Ctx F J, ctx.row ∈ pre ++ row :: rest →
      ∃ i, getDataItem E ctx (str "row." ++ x) = .number (val ctx.row) i)
    (hacc : (s.report.accumulator x).getD E.zero =
      runningSum E val (pre ++ row :: rest) pre.length)
    (hcalls : ∀ c ∈ s.calls, ShowsSum E val (pre ++ row :: rest) x c) :
    (∀ c ∈ (processRow E data s pre.length row).1.calls,
      ShowsSum E val (pre ++ row :: rest) x c) ∧
    ((processRow E data s pre.length row).2 = none →
      (processRow E data s pre.length row).1.report.bodyLines = s.report.bodyLines ∧
      ((processRow E data s pre.length row).1.report.accumulator x).getD E.zero =
        runningSum E val (pre ++ row :: rest) (pre.length + 1)) := by
  obtain ⟨hbr, hbc⟩ := breakPage_frame E data s pre.length row
  have hcalls1 : ∀ c ∈ (breakPage E data s pre.length row).1.calls,
      ShowsSum E val (pre ++ row :: rest) x c := by
    intro c hc
    rcases hbc c hc with h | ⟨sec, page, rfl⟩
    · exact hcalls c h
    · exact hacc
  unfold processRow
  rcases Step.andThen_cases (breakPage E data s pre.length row)
    (fun s => renderBody E data s pre.length row) with ⟨hne, h⟩ | ⟨_, h⟩
  · rw [h]
    exact ⟨hcalls1, fun h0 => absurd h0 hne⟩
  · rw [h]
    obtain ⟨hc, hb⟩ := renderBody_calls E data (breakPage E data s pre.length row).1 pre.length row
    refine ⟨?_, fun hok => ⟨?_, ?_⟩⟩
    · intro c hmem
      rw [hc] at hmem
      rcases List.mem_append.mp hmem with h1 | h1
      · exact hcalls1 c h1
      · rw [List.mem_singleton.mp h1]
        show ((breakPage E data s pre.length row).1.report.accumulator x).getD E.zero = _
        rw [hbr]
        exact hacc
    · rw [hb, hbr]
    · rw [renderBody_entry E data _ pre.length row x (val row) (by rw [hbr]; exact honce)
        (hnum _ (by simp [Report.newState])) hok, hbr, hacc, runningSum_succ]

/-- The invariant of the row loop for the accumulator entry `x`. -/
theorem processRows_cumulative (E : Ext F J) (data : Option J) (x : GoString)
    (val : Option J → F) (rows : List (Option J)) (bodyLines : List GoString)
    (honce : (layoutVars E bodyLines 0).count (str "row." ++ x) = 1)
    (hnum : ∀ ctx : Ctx F J, ctx.row ∈ rows →
      ∃ i, getDataItem E ctx (str "row." ++ x) = .number (val ctx.row) i) :
    ∀ (rest pre : List (Option J)) (s : PState F J), rows = pre ++ rest →
      s.report.bodyLines = bodyLines →
      (s.report.accumulator x).getD E.zero = runningSum E val rows pre.length →
      (∀ c ∈ s.calls, ShowsSum E val rows x c) →
      (∀ c ∈ (processRows E data rest pre.length s).1.calls, ShowsSum E val rows x c) ∧
      ((processRows E data rest pre.length s).2 = none →
        ((processRows E data rest pre.length s).1.report.accumulator x).getD E.zero =
          runningSum E val rows rows.length) := by
  intro rest
  induction rest with
  | nil =>
    intro pre s hrows hb hacc hcalls
    simp only [List.append_nil] at hrows
    subst hrows
    exact ⟨hcalls, fun _ => hacc⟩
  | cons row rest ih =>
    intro pre s hrows hb hacc hcalls
    subst hrows
    obtain ⟨h1, h2⟩ := processRow_cumulative E data x val pre row rest s (hb ▸ honce) hnum
      hacc hcalls
    unfold processRows
    rcases Step.andThen_cases (processRow E data s pre.length row)
      (fun s => processRows E data rest (pre.length + 1) s) with ⟨hne, h⟩ | ⟨heq, h⟩
    · rw [h]
      exact ⟨h1, fun h0 => absurd h0 hne⟩
    · rw [h]
      obtain ⟨h3, h4⟩ := h2 heq
      have := ih (pre ++ [row]) (processRow E data s pre.length row).1 (by simp)
        (h3.trans hb) (by simpa using h4) h1
      simpa using this

/-- C3 (amended): on a report whose accumulator has no entry `x` and whose body layout
references the numeric field `row.x` exactly once, every context that `Report.process`
builds with row index `k` (the footer at a page break before row `k`, the trailing footer
with `k = N`) shows in `report.summary.x` the sum of `row.x` over the rows `0..k-1`, with
no reset at page boundaries, and after a run without error the accumulator entry is the sum
over all rows. -/
theorem process_cumulative (E : Ext F J) (r : Report F) (data : Option J)
    (rows : List (Option J)) (x : GoString) (val : Option J → F)
    (hfresh : r.accumulator x = none)
    (honce : (layoutVars E r.bodyLines 0).count (str "row." ++ x) = 1)
    (hnum : ∀ ctx : Ctx F J, ctx.row ∈ rows →
      ∃ i, getDataItem E ctx (str "row." ++ x) = .number (val ctx.row) i) :
    Cumulative E val rows x (r.process E data rows) := by
  obtain ⟨h1, h2⟩ := processRows_cumulative E data x val rows r.bodyLines honce hnum rows []
    ⟨r, 0, [], []⟩ rfl rfl (by simp [hfresh, runningSum]) (by simp)
  unfold Cumulative Report.process
  simp only [List.length_nil] at h1 h2
  rcases Step.andThen_cases (processRows E data rows 0 ⟨r, 0, [], []⟩)
    (trailingFooter E data rows.length) with ⟨hne, h⟩ | ⟨heq, h⟩
  · rw [h]
    exact ⟨h1, fun h0 => absurd h0 hne⟩
  · rw [h]
    unfold trailingFooter
    split
    · refine ⟨?_, fun _ => h2 heq⟩
      intro c hc
      simp only [Step.wrap, renderSection, List.mem_append, List.mem_singleton] at hc
      rcases hc with hc | hc
      · exact h1 c hc
      · rw [hc]
        exact h2 heq
    · exact ⟨h1, fun _ => h2 heq⟩

theorem flatExt_row_number (name : GoString) (ctx : Ctx Int FlatRow) (row : FlatRow) (f i : Int)
    (hrow : ctx.row = some row) (hf : row.lookup name = some (.number f i)) :
    getDataItem flatExt ctx (str "row." ++ name) = .number f i := by
  have h1 : hasPrefix (str "row." ++ name) (str "report.summary.") = false := by
    unfold hasPrefix
    rfl
  have h2 : hasPrefix (str "row." ++ name) (str "row.") = true := hasPrefix_append _ _
  have h3 : (str "row." ++ name).drop 4 = name := rfl
  have h4 : str "row." ++ name ≠ str "report.page" := by
    intro h; cases h
  have h5 : str "row." ++ name ≠ str "report.name" := by
    intro h; cases h
  have h6 : str "row." ++ name ≠ str "report.current_row" := by
    intro h; cases h
  unfold getDataItem
  simp only [h1, Bool.false_eq_true, if_false]
  have : flatExt.gjsonGet ctx (str "row." ++ name) = .number f i := by
    show flatGet ctx (str "row." ++ name) = _
    unfold flatGet
    rw [if_neg h4, if_neg h5, if_neg h6, h1, h2, hrow, h3]
    simp [hf]
  rw [this]

/-- C3, counterexample: with a body layout that references `row.x` twice and one row in
which `x` is 1, the run returns no error and leaves 2 in the accumulator entry `x`, which
the trailing footer shows, while the sum of `row.x` over the rows is 1. -/
theorem cumulative_counterexample :
    dupReport.accumulator (str "x") = none ∧
    (∀ ctx : Ctx Int FlatRow, ctx.row ∈ dupRows →
      ∃ i, getDataItem flatExt ctx (str "row." ++ str "x") = .number 1 i) ∧
    (dupReport.process flatExt none dupRows).2 = none ∧
    (dupReport.process flatExt none dupRows).1.report.accumulator (str "x") = some 2 ∧
    (dupReport.process flatExt none dupRows).1.out = str "1   1  \n2    \n" ∧
    runningSum flatExt (fun _ => 1) dupRows dupRows.length = 1 ∧
    ¬ Cumulative flatExt (fun _ => 1) dupRows (str "x")
      (dupReport.process flatExt none dupRows) := by
  refine ⟨rfl, ?_, by decide, by decide, by decide, by decide, ?_⟩
  · intro ctx h
    simp only [dupRows, List.mem_singleton] at h
    exact ⟨1, flatExt_row_number (str "x") ctx _ 1 1 h (by decide)⟩
  · intro h
    have h1 := h.2 (by decide)
    revert h1
    decide

theorem process_cumulative_witness :
    Cumulative flatExt (flatField (str "n")) demoRows (str "n")
      (demoReport.process flatExt none demoRows) :=
  process_cumulative flatExt demoReport none demoRows (str "n") (flatField (str "n")) rfl
    (by decide)
    (by
      intro ctx h
      simp only [demoRows, List.mem_cons, List.mem_singleton, List.not_mem_nil, or_false] at h
      rcases h with h | h | h
      · exact ⟨5, by rw [h]; exact flatExt_row_number (str "n") ctx _ 5 5 h (by decide)⟩
      · exact ⟨7, by rw [h]; exact flatExt_row_number (str "n") ctx _ 7 7 h (by decide)⟩
      · exact ⟨1, by rw [h]; exact flatExt_row_number (str "n") ctx _ 1 1 h (by decide)⟩)

/-! ## The string rule -/

theorem makeSuf_of_lt {format v : GoString} (hl : format.getLastD 0 < 128)
    (hv : v.length < format.length) :
    makeSuf format v =
      if format.getLastD 0 = 60 ∨ format.getLastD 0 = 62 ∨ format.getLastD 0 = 124 then v
      else v ++ [format.getLastD 0] := by
  unfold makeSuf
  rw [length_byteToString hl, if_neg (Nat.not_le.mpr hv)]
  simp [containsAny, str]

theorem makeSuf_of_le {format v : GoString} (hl : format.getLastD 0 < 128)
    (hv : format.length ≤ v.length) :
    makeSuf format v =
      if format.getLastD 0 = 60 ∨ format.getLastD 0 = 62 ∨ format.getLastD 0 = 124 then v
      else v.take (format.length - 1) ++ [format.getLastD 0] := by
  unfold makeSuf
  rw [length_byteToString hl, if_pos hv]
  simp [containsAny, str]

theorem containsByte_eq_false {v : GoString} {b : Nat} (h : b ∉ v) : containsByte v b = false := by
  simpa [containsByte] using h

/-- C4: for a token `T` of width at least 2 (its last character ASCII, as every picture
character is) and a value `v` without line feed that is shorter than `T`, with `u` the
value followed by the token's last character unless that is `<`, `>` or `|`, and `k` the
width left: `formatString` returns `u` and `k` spaces for `<`, `k` spaces and `u` for `>`,
`u` between `k/2` and `k - k/2` spaces for `|`, and the invalid string format error for
any other second character. -/
theorem formatString_pad (v T : GoString) (c : Nat) (hc : T.get? 1 = some c)
    (hl : T.getLastD 0 < 128) (hnl : 10 ∉ v) (hlt : v.length < T.length) :
    formatString v T =
      (let u := if T.getLastD 0 = 60 ∨ T.getLastD 0 = 62 ∨ T.getLastD 0 = 124 then v
        else v ++ [T.getLastD 0]
      let k := T.length - u.length
      if c = 60 then .ok (u ++ List.replicate k 32)
      else if c = 62 then .ok (List.replicate k 32 ++ u)
      else if c = 124 then .ok (List.replicate (k / 2) 32 ++ u ++ List.replicate (k - k / 2) 32)
      else .error (.invalidStringFormat T)) := by
  rw [formatString_short hl (containsByte_eq_false hnl) hlt, hc, makeSuf_of_lt hl hlt]
  simp only
  by_cases h1 : c = 124
  · subst h1; simp
  · by_cases h2 : c = 62
    · subst h2; simp
    · simp [h1, h2]

theorem formatString_pad_witness :
    formatString (str "12") (str "@||||:") = .ok (str " 12:  ") :=
  formatString_pad (str "12") (str "@||||:") 124 (by decide) (by decide) (by decide) (by decide)

/-- C5: for a non-empty token `T` of width `w` (its last character ASCII) and a value `v`
without line feed of at least `w` bytes, `formatString` returns without error, whatever
the second character of `T`: the first `w` bytes of `v` when the last character of `T` is
`<`, `>` or `|`, and else the first `w - 1` bytes of `v` followed by that character. -/
theorem formatString_truncate (v T : GoString) (hne : T ≠ []) (hl : T.getLastD 0 < 128)
    (hnl : 10 ∉ v) (hge : T.length ≤ v.length) :
    formatString v T =
      .ok (if T.getLastD 0 = 60 ∨ T.getLastD 0 = 62 ∨ T.getLastD 0 = 124 then v.take T.length
        else v.take (T.length - 1) ++ [T.getLastD 0]) := by
  have hpos : 0 < T.length := List.length_pos.mpr hne
  unfold formatString
  rw [if_neg (by omega), containsByte_eq_false hnl]
  simp only [Bool.false_eq_true, if_false]
  by_cases heq : v.length = T.length
  · rw [if_pos heq, makeSuf_of_le hl hge]
    have : v.take T.length = v := by rw [← heq]; exact List.take_length _
    rw [this]
  · rw [if_neg heq, if_pos (by omega), makeSuf_of_le hl (by simp; omega)]
    have : (v.take T.length).take (T.length - 1) = v.take (T.length - 1) := by
      rw [List.take_take]
      congr 1
      omega
    rw [this]

theorem formatString_truncate_witness :
    formatString (str "12345678") (str "@>>>>:") = .ok (str "12345:") :=
  formatString_truncate (str "12345678") (str "@>>>>:") (by decide) (by decide) (by decide)
    (by decide)

/-- C10: for a value `v` that contains a line feed, `formatString` gives on `v` what it
gives on the part of `v` before the first line feed, result and error alike. -/
theorem formatString_lineBreak (v T : GoString) (_h : 10 ∈ v) :
    formatString v T = formatString (firstLine v) T :=
  formatString_firstLine v T

theorem formatString_lineBreak_witness :
    formatString (str "1234\n5678") (str "@>>>>:") = formatString (str "1234") (str "@>>>>:") :=
  formatString_lineBreak (str "1234\n5678") (str "@>>>>:") (by decide)

/-! ## The number rules -/

theorem toDigitsCore_ne_nil (b : Nat) :
    ∀ (fuel n : Nat) (ds : List Char), ds ≠ [] → Nat.toDigitsCore b fuel n ds ≠ [] := by
  intro fuel
  induction fuel with
  | zero => intro n ds h; simpa [Nat.toDigitsCore] using h
  | succ fuel ih =>
    intro n ds _
    unfold Nat.toDigitsCore
    simp only
    split
    · simp
    · exact ih _ _ (by simp)

theorem decimalNat_ne_nil (n : Nat) : decimalNat n ≠ [] := by
  unfold decimalNat Nat.toDigits
  unfold Nat.toDigitsCore
  simp only
  split
  · simp
  · simpa using toDigitsCore_ne_nil 10 _ _ _ (by simp)

theorem decimal_ne_nil (n : Int) : decimal n ≠ [] := by
  unfold decimal
  split
  · simp
  · exact decimalNat_ne_nil _

theorem split_of_not_mem {sep : Nat} {s : GoString} (h : sep ∉ s) : split sep s = [s] := by
  induction s with
  | nil => rfl
  | cons c cs ih =>
    have hc : c ≠ sep := fun e => h (by simp [e])
    have hcs : sep ∉ cs := fun e => h (List.mem_cons_of_mem _ e)
    unfold split
    rw [if_neg hc, ih hcs]

/-- C6: when the rule that `formatNumber` selects for the token `T` renders the number `v`
to a string longer than `T`, `formatNumber` returns `#` repeated `len(T)` times and no
error. -/
theorem formatNumber_overflow (E : Ext F J) (v : NumArg F) (T val : GoString)
    (hsel : renderNumber E v T = .ok val) (hlong : T.length < val.length) :
    formatNumber E v T = .ok (List.replicate T.length 35) := by
  unfold formatNumber
  rw [hsel]
  simp only
  rw [if_neg (by omega), if_pos hlong]

theorem formatNumber_overflow_witness :
    formatNumber flatExt (.int 123456) (str "@,####") = .ok (str "######") :=
  formatNumber_overflow flatExt (.int 123456) (str "@,####") (str "123,456") (by decide)
    (by decide)

/-- C7: for an integer `n` and a token `T` of width `w` without `.` whose second character
is `#` or `0`, with `d` the decimal representation of `n` and `len(d) ≤ w`: `formatNumber`
returns `d` left-padded with `0` to width `w` when the second character is `0`, and `d`
right-padded with spaces to width `w` otherwise. -/
theorem formatNumber_int (E : Ext F J) (n : Int) (T : GoString)
    (hc : T.get? 1 = some 35 ∨ T.get? 1 = some 48) (hdot : 46 ∉ T)
    (hlen : (decimal n).length ≤ T.length) :
    formatNumber E (.int n) T =
      .ok (if T.get? 1 = some 48 then List.replicate (T.length - (decimal n).length) 48 ++ decimal n
        else decimal n ++ List.replicate (T.length - (decimal n).length) 32) := by
  have hr : renderNumber E (.int n) T = .ok (decimal n) := by
    unfold renderNumber
    rcases hc with h | h <;> rw [h] <;> simp [formatFloat, split_of_not_mem hdot, sprintfD]
  have hpos : 0 < (decimal n).length := List.length_pos.mpr (decimal_ne_nil n)
  unfold formatNumber
  rw [hr]
  simp only
  rw [if_neg (by omega), if_neg (by omega)]
  by_cases hlt : (decimal n).length < T.length
  · rw [if_pos hlt]
    split <;> rfl
  · rw [if_neg hlt]
    have : T.length - (decimal n).length = 0 := by omega
    rw [this]
    split <;> simp

theorem formatNumber_int_witness :
    formatNumber flatExt (.int (-12)) (str "@0###") = .ok (str "00-12") :=
  formatNumber_int flatExt (-12) (str "@0###") (by decide) (by decide) (by decide)

/-! ## The picture tokenizer -/

theorem picChar_eq_false_of_le {c : Nat} (h : 128 ≤ c) : picChar c = false := by
  cases hp : picChar c with
  | false => rfl
  | true => have := picChar_lt hp; omega

theorem picChar_at : picChar 64 = true := by decide

/-- What `range` decodes at a byte that is not ASCII: a rune that is not ASCII either, made
of one to four bytes of the string, none of them ASCII. -/
theorem decodeRune_nonascii (b0 : Nat) (cs : GoString) (h : 128 ≤ b0) :
    ∀ r : Nat × Nat, decodeRune (b0 :: cs) = r →
      128 ≤ r.1 ∧ 1 ≤ r.2 ∧ r.2 ≤ (b0 :: cs).length ∧ ∀ b ∈ (b0 :: cs).take r.2, 128 ≤ b := by
  have one : ∀ r : Nat × Nat, (65533, 1) = r →
      128 ≤ r.1 ∧ 1 ≤ r.2 ∧ r.2 ≤ (b0 :: cs).length ∧ ∀ b ∈ (b0 :: cs).take r.2, 128 ≤ b := by
    rintro r rfl
    refine ⟨by simp, by simp, by simp, ?_⟩
    intro b hb
    simp at hb
    omega
  have hlo : 128 ≤ acceptLo b0 ∧ (b0 = 224 → acceptLo b0 = 160) ∧
      (b0 = 240 → acceptLo b0 = 144) := by
    unfold acceptLo
    refine ⟨?_, ?_, ?_⟩
    · split
      · omega
      · split <;> omega
    · intro h1; rw [if_pos h1]
    · intro h1; rw [if_neg (by omega), if_pos h1]
  have hhi : acceptHi b0 ≤ 191 := by
    unfold acceptHi
    split
    · omega
    · split <;> omega
  intro r hr
  unfold decodeRune at hr
  simp only at hr
  rw [if_neg (by omega)] at hr
  generalize acceptLo b0 = lo at hr hlo
  generalize acceptHi b0 = hi at hr hhi
  split at hr
  · exact one r hr
  · split at hr
    · split at hr
      · split at hr
        · rename_i hb
          subst hr
          refine ⟨by simp only; omega, by simp, by simp, ?_⟩
          intro b hmem
          simp at hmem
          omega
        · exact one r hr
      · exact one r hr
    · split at hr
      · split at hr
        · split at hr
          · rename_i hb
            subst hr
            refine ⟨by simp only; omega, by simp, by simp, ?_⟩
            intro b hmem
            simp at hmem
            omega
          · exact one r hr
        · exact one r hr
      · split at hr
        · split at hr
          · split at hr
            · rename_i hb
              subst hr
              refine ⟨by simp only; omega, by simp, by simp, ?_⟩
              intro b hmem
              simp at hmem
              omega
            · exact one r hr
          · exact one r hr
        · exact one r hr

theorem scan_skip : ∀ (w : Nat) (s : GoString), (∀ b ∈ s.take w, 128 ≤ b) →
    scan s false [] = scan (s.drop w) false [] := by
  intro w
  induction w with
  | zero => intro s _; rfl
  | succ w ih =>
    intro s h
    cases s with
    | nil => rfl
    | cons b cs =>
      have hb : 128 ≤ b := h b (by simp)
      have hne : (b == 64) = false := by
        simp only [beq_eq_false_iff_ne, ne_eq]
        omega
      rw [List.drop_succ_cons, ← ih cs (fun x hx => h x (by simp [hx]))]
      simp only [scan, hne, Bool.false_or, Bool.false_eq_true, if_false]

theorem decodeRune_ascii (b0 : Nat) (cs : GoString) (h : b0 < 128) :
    decodeRune (b0 :: cs) = (b0, 1) := by
  simp [decodeRune, h]

/-- The loop of `picturesFromLine` over runes does what the byte-wise reading does. -/
theorem picturesLoop_eq_scan (ll : Nat) :
    ∀ (fuel i : Nat) (rest : GoString) (inPicture : Bool) (cur : GoString)
      (picts : List GoString), rest.length ≤ fuel → i + rest.length = ll →
      (inPicture = false → cur = []) → (rest = [] → inPicture = false) →
      picturesLoop ll fuel i rest inPicture cur picts = picts ++ scan rest inPicture cur := by
  intro fuel
  induction fuel with
  | zero =>
    intro i rest inPicture cur picts hf _ _ hend
    have hr : rest = [] := List.length_eq_zero.mp (by omega)
    subst hr
    simp [picturesLoop, scan, hend rfl]
  | succ fuel ih =>
    intro i rest inPicture cur picts hf hi hcur hend
    cases rest with
    | nil => simp [picturesLoop, scan, hend rfl]
    | cons b0 cs =>
      unfold picturesLoop
      simp only
      by_cases hb : b0 < 128
      · rw [decodeRune_ascii b0 cs hb]
        simp only [List.drop_succ_cons, List.drop_zero]
        have hlen : cs.length ≤ fuel := by simpa using hf
        have hi' : i + 1 + cs.length = ll := by simp at hi; omega
        by_cases hin : (inPicture || b0 == 64) = true
        · simp only [hin, Bool.not_true, Bool.false_eq_true, if_false]
          by_cases hlast : i = ll - 1
          · have hcs : cs = [] := List.length_eq_zero.mp (by omega)
            subst hcs
            rw [if_pos hlast, ih _ _ _ _ _ hlen hi' (fun _ => rfl) (fun _ => rfl)]
            unfold scan
            rw [if_pos hin]
            split <;> simp [scan]
          · have hcs : cs ≠ [] := by
              intro h0; subst h0; simp at hi'; omega
            rw [if_neg hlast]
            by_cases hp : picChar b0 = true
            · simp only [hp, Bool.not_true, Bool.false_eq_true, if_false]
              rw [ih _ _ _ _ _ hlen hi' (fun h => by cases h) (fun h => absurd h hcs)]
              conv_rhs => unfold scan
              rw [if_pos hin, if_pos hp]
            · simp only [hp, Bool.not_false, if_true]
              rw [ih _ _ _ _ _ hlen hi' (fun _ => rfl) (fun _ => rfl)]
              conv_rhs => unfold scan
              simp only [Bool.not_eq_true] at hp
              rw [if_pos hin, hp]
              simp
        · simp only [Bool.not_eq_true] at hin
          simp only [hin, Bool.not_false, if_true]
          have hinP : inPicture = false := by
            cases inPicture <;> simp_all
          subst hinP
          rw [ih _ _ _ _ _ hlen hi' (fun _ => hcur rfl) (fun _ => rfl), hcur rfl]
          conv_rhs => unfold scan
          rw [hin]
          simp
      · obtain ⟨h1, h2, h3, h4⟩ := decodeRune_nonascii b0 cs (by omega) _ rfl
        generalize (decodeRune (b0 :: cs)).1 = c at h1
        generalize (decodeRune (b0 :: cs)).2 = w at h2 h3 h4
        have hc64 : (c == 64) = false := by
          simp only [beq_eq_false_iff_ne, ne_eq]
          omega
        have hpc : picChar c = false := picChar_eq_false_of_le h1
        have hpb : picChar b0 = false := picChar_eq_false_of_le (by omega)
        have hb64 : (b0 == 64) = false := by
          simp only [beq_eq_false_iff_ne, ne_eq]
          omega
        have hlen : ((b0 :: cs).drop w).length ≤ fuel := by
          rw [List.length_drop]; simp at hf h3 ⊢; omega
        have hi' : i + w + ((b0 :: cs).drop w).length = ll := by
          rw [List.length_drop]; simp at hi h3 ⊢; omega
        have hskip : scan cs false [] = scan ((b0 :: cs).drop w) false [] := by
          obtain ⟨w', rfl⟩ : ∃ w', w = w' + 1 := ⟨w - 1, by omega⟩
          rw [List.drop_succ_cons]
          exact scan_skip w' cs (fun x hx => h4 x (by simp [hx]))
        simp only [hc64, Bool.or_false, hpc, Bool.false_eq_true, if_false, Bool.not_false,
          if_true, ite_self]
        cases inPicture with
        | false =>
          simp only [Bool.not_false, if_true]
          rw [ih _ _ _ _ _ hlen hi' (fun _ => hcur rfl) (fun _ => rfl), hcur rfl]
          conv_rhs => unfold scan
          simp only [hb64, Bool.or_false, Bool.false_eq_true, if_false]
          rw [hskip]
        | true =>
          simp only [Bool.not_true, Bool.false_eq_true, if_false]
          rw [ih _ _ _ _ _ hlen hi' (fun _ => rfl) (fun _ => rfl)]
          conv_rhs => unfold scan
          simp only [Bool.true_or, if_true, hpb, Bool.false_eq_true, if_false]
          rw [hskip]
          simp

theorem picturesFromLine_eq_scan (line : GoString) :
    picturesFromLine line = scan line false [] := by
  unfold picturesFromLine
  rw [picturesLoop_eq_scan line.length line.length 0 line false [] [] (Nat.le_refl _)
    (Nat.zero_add _) (fun _ => rfl) (fun _ => rfl)]
  rfl

theorem scan_of_not_mem {pre : GoString} (h : 64 ∉ pre) (s : GoString) :
    scan (pre ++ s) false [] = scan s false [] := by
  induction pre with
  | nil => rfl
  | cons c cs ih =>
    have hc : (c == 64) = false := by
      simp only [beq_eq_false_iff_ne, ne_eq]
      intro e
      exact h (by simp [e])
    rw [List.cons_append]
    conv_lhs => unfold scan
    simp only [hc, Bool.or_false, Bool.false_eq_true, if_false]
    exact ih (fun e => h (List.mem_cons_of_mem _ e))

theorem scan_run (run : GoString) (hrun : ∀ c ∈ run, picChar c = true) (post : GoString)
    (hpost : post = [] ∨ ∃ c rest, post = c :: rest ∧ picChar c = false) :
    ∀ cur : GoString, scan (run ++ post) true cur = (cur ++ run) :: scan post false [] := by
  induction run with
  | nil =>
    intro cur
    rcases hpost with rfl | ⟨c, rest, rfl, hc⟩
    · simp [scan]
    · have h64 : (c == 64) = false := by
        simp only [beq_eq_false_iff_ne, ne_eq]
        rintro rfl
        simp [picChar_at] at hc
      simp only [List.nil_append, List.append_nil]
      conv_lhs => unfold scan
      conv_rhs => unfold scan
      simp [hc, h64]
  | cons c cs ih =>
    intro cur
    have hc : picChar c = true := hrun c (by simp)
    rw [List.cons_append]
    conv_lhs => unfold scan
    simp only [Bool.true_or, if_true, hc]
    rw [ih (fun x hx => hrun x (by simp [hx]))]
    simp

theorem scan_token {t : GoString} (hhead : t.head? = some 64) (ht : ∀ c ∈ t, picChar c = true)
    (post : GoString) (hpost : post = [] ∨ ∃ c rest, post = c :: rest ∧ picChar c = false) :
    scan (t ++ post) false [] = t :: scan post false [] := by
  cases t with
  | nil => simp at hhead
  | cons a run =>
    simp only [List.head?_cons, Option.some.injEq] at hhead
    subst hhead
    rw [List.cons_append]
    conv_lhs => unfold scan
    simp only [beq_self_eq_true, Bool.or_true, if_true, picChar_at]
    rw [scan_run run (fun x hx => ht x (by simp [hx])) post hpost]
    simp

theorem tokenizes_unique : ∀ (ts : List GoString) (line : GoString),
    Tokenizes line ts → ts = scan line false [] := by
  intro ts
  induction ts with
  | nil =>
    intro line h
    have := @scan_of_not_mem line h []
    simp only [List.append_nil] at this
    rw [this]
    rfl
  | cons t ts ih =>
    intro line h
    obtain ⟨pre, post, rfl, hpre, hhead, ht, hpost, hrest⟩ := h
    rw [List.append_assoc, scan_of_not_mem hpre, scan_token hhead ht post hpost, ← ih post hrest]

theorem exists_first_at : ∀ line : GoString, 64 ∈ line →
    ∃ pre tail, line = pre ++ 64 :: tail ∧ 64 ∉ pre := by
  intro line
  induction line with
  | nil => intro h; simp at h
  | cons c cs ih =>
    intro h
    by_cases hc : c = 64
    · exact ⟨[], cs, by simp [hc], by simp⟩
    · have hcs : 64 ∈ cs := by
        rcases List.mem_cons.mp h with h1 | h1
        · exact absurd h1.symm hc
        · exact h1
      obtain ⟨pre, tail, rfl, hpre⟩ := ih hcs
      refine ⟨c :: pre, tail, by simp, ?_⟩
      intro hmem
      rcases List.mem_cons.mp hmem with h1 | h1
      · exact hc h1.symm
      · exact hpre h1

theorem exists_run : ∀ tail : GoString, ∃ run post, tail = run ++ post ∧
    (∀ c ∈ run, picChar c = true) ∧
    (post = [] ∨ ∃ c rest, post = c :: rest ∧ picChar c = false) := by
  intro tail
  induction tail with
  | nil => exact ⟨[], [], rfl, by simp, Or.inl rfl⟩
  | cons c cs ih =>
    by_cases hc : picChar c = true
    · obtain ⟨run, post, rfl, hrun, hpost⟩ := ih
      refine ⟨c :: run, post, rfl, ?_, hpost⟩
      intro x hx
      rcases List.mem_cons.mp hx with rfl | h1
      · exact hc
      · exact hrun x h1
    · simp only [Bool.not_eq_true] at hc
      exact ⟨[], c :: cs, rfl, by simp, Or.inr ⟨c, cs, rfl, hc⟩⟩

theorem tokenizes_scan : ∀ (n : Nat) (line : GoString), line.length ≤ n →
    Tokenizes line (scan line false []) := by
  intro n
  induction n with
  | zero =>
    intro line h
    have : line = [] := List.length_eq_zero.mp (by omega)
    subst this
    simp [scan, Tokenizes]
  | succ n ih =>
    intro line hlen
    by_cases hat : 64 ∈ line
    · obtain ⟨pre, tail, rfl, hpre⟩ := exists_first_at line hat
      obtain ⟨run, post, rfl, hrun, hpost⟩ := exists_run tail
      have ht : ∀ c ∈ 64 :: run, picChar c = true := by
        intro x hx
        rcases List.mem_cons.mp hx with rfl | h1
        · exact picChar_at
        · exact hrun x h1
      have hscan : scan (pre ++ 64 :: (run ++ post)) false []
          = (64 :: run) :: scan post false [] := by
        rw [scan_of_not_mem hpre]
        exact @scan_token (64 :: run) rfl ht post hpost
      rw [hscan]
      refine ⟨pre, post, by simp, hpre, rfl, ht, hpost, ih post ?_⟩
      simp at hlen
      omega
    · have := @scan_of_not_mem line hat []
      simp only [List.append_nil] at this
      rw [this]
      simpa [scan, Tokenizes] using hat

theorem isPictureToken_of_head {t : GoString} (hhead : t.head? = some 64)
    (ht : ∀ c ∈ t, picChar c = true) : isPictureToken t = true := by
  cases t with
  | nil => simp at hhead
  | cons a run =>
    simp only [List.head?_cons, Option.some.injEq] at hhead
    subst hhead
    simp only [isPictureToken, List.all_eq_true]
    exact fun x hx => ht x (List.mem_cons_of_mem _ hx)

theorem tokenizes_tokens : ∀ (ts : List GoString) (line : GoString), Tokenizes line ts →
    ∀ t ∈ ts, isPictureToken t = true ∧ t <:+: line := by
  intro ts
  induction ts with
  | nil => intro line _ t ht; simp at ht
  | cons t0 ts ih =>
    intro line h t ht
    obtain ⟨pre, post, rfl, _, hhead, hpic, _, hrest⟩ := h
    rcases List.mem_cons.mp ht with rfl | h1
    · exact ⟨isPictureToken_of_head hhead hpic, ⟨pre, post, rfl⟩⟩
    · obtain ⟨h2, h3⟩ := ih post hrest t h1
      exact ⟨h2, h3.trans ⟨pre ++ t0, [], by simp⟩⟩

/-- C9: `picturesFromLine` returns, in order, exactly the tokens of the line as the
specification describes them (each starts at the first `@` after the token before, runs
over picture characters and ends before a character that is not one or at the end of the
line); every token returned is a picture token and a contiguous part of the line; a line
without `@` yields the empty list. -/
theorem picturesFromLine_spec (line : GoString) :
    (∀ ts, Tokenizes line ts ↔ ts = picturesFromLine line) ∧
    (∀ t ∈ picturesFromLine line, isPictureToken t = true ∧ t <:+: line) ∧
    (64 ∉ line → picturesFromLine line = []) := by
  rw [picturesFromLine_eq_scan]
  have h := tokenizes_scan line.length line (Nat.le_refl _)
  refine ⟨fun ts => ⟨tokenizes_unique ts line, ?_⟩, tokenizes_tokens _ line h, ?_⟩
  · rintro rfl
    exact h
  · intro hno
    exact (tokenizes_unique [] line hno).symm

theorem picturesFromLine_spec_witness :
    picturesFromLine (str "a@<@< b ^^ @") = [str "@<@<", str "@"] ∧
    Tokenizes (str "a@<@< b ^^ @") [str "@<@<", str "@"] :=
  ⟨by decide, ((picturesFromLine_spec (str "a@<@< b ^^ @")).1 _).mpr (by decide)⟩

/-! ## Substitution into a picture line -/

theorem replaceFirst_at (t post r : GoString) (hhead : t.head? = some 64) :
    ∀ B : GoString, 64 ∉ B → replaceFirst (B ++ t ++ post) t r = B ++ r ++ post := by
  intro B
  induction B with
  | nil =>
    intro _
    unfold replaceFirst
    have : t.isPrefixOf ([] ++ t ++ post) = true := by
      rw [List.isPrefixOf_iff_prefix]
      exact ⟨post, by simp⟩
    rw [if_pos this]
    simp
  | cons b B ih =>
    intro hB
    have hb : b ≠ 64 := fun e => hB (by simp [e])
    have hnot : t.isPrefixOf (b :: B ++ t ++ post) = false := by
      cases t with
      | nil => simp at hhead
      | cons a run =>
        simp only [List.head?_cons, Option.some.injEq] at hhead
        subst hhead
        simp [List.isPrefixOf, Ne.symm hb]
    unfold replaceFirst
    rw [hnot]
    simp only [Bool.false_eq_true, if_false, List.cons_append]
    rw [ih (fun e => hB (List.mem_cons_of_mem _ e))]

theorem positional_token (pre t post r : GoString) (rs : List GoString) (hpre : 64 ∉ pre)
    (hhead : t.head? = some 64) (ht : ∀ c ∈ t, picChar c = true)
    (hpost : post = [] ∨ ∃ c rest, post = c :: rest ∧ picChar c = false) :
    positional (pre ++ t ++ post) (r :: rs) = pre ++ r ++ positional post rs := by
  cases t with
  | nil => simp at hhead
  | cons a run =>
    simp only [List.head?_cons, Option.some.injEq] at hhead
    subst hhead
    have hp : ∀ b ∈ pre, (fun b => decide (b ≠ 64)) b = true := by
      intro b hb
      simp only [ne_eq, decide_not, Bool.not_eq_true', decide_eq_false_iff_not]
      rintro rfl
      exact hpre hb
    have h1 : (pre ++ (64 :: run) ++ post).dropWhile (fun b => decide (b ≠ 64))
        = 64 :: (run ++ post) := by
      rw [List.append_assoc, List.dropWhile_append_of_pos hp]
      simp
    have h2 : (pre ++ (64 :: run) ++ post).takeWhile (fun b => decide (b ≠ 64)) = pre := by
      rw [List.append_assoc, List.takeWhile_append_of_pos hp]
      simp
    have h3 : (run ++ post).dropWhile picChar = post := by
      rw [List.dropWhile_append_of_pos (fun b hb => ht b (List.mem_cons_of_mem _ hb))]
      rcases hpost with rfl | ⟨c, rest, rfl, hc⟩
      · rfl
      · simp [hc]
    conv_lhs => unfold positional
    rw [h1]
    simp only
    rw [h2, h3]

/-- First-occurrence replacement, token after token, is positional replacement when no
rendering contains an `@`. -/
theorem replace_chain : ∀ (ts : List GoString) (line A : GoString) (rs : List GoString),
    Tokenizes line ts → 64 ∉ A → rs.length = ts.length → (∀ r ∈ rs, 64 ∉ r) →
    (ts.zip rs).foldl (fun l p => replaceFirst l p.1 p.2) (A ++ line) =
      A ++ positional line rs := by
  intro ts
  induction ts with
  | nil =>
    intro line A rs _ _ hlen _
    have : rs = [] := List.length_eq_zero.mp hlen
    subst this
    simp [positional]
  | cons t ts ih =>
    intro line A rs htok hA hlen hrs
    cases rs with
    | nil => simp at hlen
    | cons r rs =>
      obtain ⟨pre, post, rfl, hpre, hhead, ht, hpost, hrest⟩ := htok
      have hB : 64 ∉ A ++ pre := by
        intro h
        rcases List.mem_append.mp h with h | h
        · exact hA h
        · exact hpre h
      have hr : 64 ∉ r := hrs r (by simp)
      have hA' : 64 ∉ A ++ pre ++ r := by
        intro h
        rcases List.mem_append.mp h with h | h
        · exact hB h
        · exact hr h
      simp only [List.zip_cons_cons, List.foldl_cons]
      have e1 : A ++ (pre ++ t ++ post) = (A ++ pre) ++ t ++ post := by simp
      rw [e1, replaceFirst_at t post r hhead (A ++ pre) hB,
        ih post (A ++ pre ++ r) rs hrest hA' (by simpa using hlen)
          (fun x hx => hrs x (List.mem_cons_of_mem _ hx)),
        positional_token pre t post r rs hpre hhead ht hpost]
      simp

theorem substitute_ok (E : Ext F J) (dj : Ctx F J) :
    ∀ (ts vs rs : List GoString) (acc : Option (Acc F)) (line : GoString),
      Renders E dj ts vs rs →
      ∃ acc', substitute E dj ts vs acc line =
        (acc', .ok ((ts.zip rs).foldl (fun l p => replaceFirst l p.1 p.2) line)) := by
  intro ts
  induction ts with
  | nil =>
    intro vs rs acc line h
    exact ⟨acc, by simp [substitute]⟩
  | cons t ts ih =>
    intro vs rs acc line h
    cases vs with
    | nil => cases rs <;> simp [Renders] at h
    | cons v vs =>
      cases rs with
      | nil => simp [Renders] at h
      | cons r rs =>
        obtain ⟨h1, h2⟩ := h
        unfold substitute
        simp only [h1, List.zip_cons_cons, List.foldl_cons]
        exact ih vs rs _ _ h2

theorem renders_length (E : Ext F J) (dj : Ctx F J) :
    ∀ (ts vs rs : List GoString), Renders E dj ts vs rs → rs.length = ts.length := by
  intro ts
  induction ts with
  | nil =>
    intro vs rs h
    cases vs <;> cases rs <;> simp [Renders] at h ⊢
  | cons t ts ih =>
    intro vs rs h
    cases vs with
    | nil => cases rs <;> simp [Renders] at h
    | cons v vs =>
      cases rs with
      | nil => simp [Renders] at h
      | cons r rs => simpa using ih vs rs h.2

theorem tokenizes_picturesFromLine (line : GoString) :
    Tokenizes line (picturesFromLine line) := by
  rw [picturesFromLine_eq_scan]
  exact tokenizes_scan line.length line (Nat.le_refl _)

theorem isPictureLine_of_tokens {L : GoString} (h : picturesFromLine L ≠ []) :
    isPictureLine L = true := by
  have hat : 64 ∈ L := by
    by_contra hno
    exact h ((picturesFromLine_eq_scan L).trans (tokenizes_unique [] L hno).symm)
  unfold isPictureLine containsAny
  rw [List.any_eq_true]
  exact ⟨64, hat, by decide⟩

/-- C8: for a picture line `L` (not a comment) met by `formatter.process` with no pictures
pending, with the tokens that `picturesFromLine` returns, at least one, and a following
variable line `V` (not a comment) with as many fields: if every value renders without
error and no rendering contains an `@`, the loop writes one line, namely `L` with the
rendering of the `i`-th value at the place of the `i`-th token and every other character
unchanged, and goes on with the rest of the layout with no pictures pending. -/
theorem process_positional (E : Ext F J) (dj : Ctx F J) (L V : GoString)
    (rest : List GoString) (pictures : List GoString) (fmtLine : GoString)
    (acc : Option (Acc F)) (w : GoString) (rs : List GoString)
    (hL : isCommentLine L = false) (hV : isCommentLine V = false)
    (hn : picturesFromLine L ≠ [])
    (hcount : isVariableLine V (picturesFromLine L).length = true)
    (hr : Renders E dj (picturesFromLine L) ((split 44 V).map E.trimSpace) rs)
    (hat : ∀ r ∈ rs, 64 ∉ r) :
    ∃ acc', processLines E dj (L :: V :: rest) 0 pictures fmtLine acc w =
      processLines E dj rest 0 [] [] acc' (w ++ positional L rs ++ [10]) := by
  have hpos : 0 < (picturesFromLine L).length := List.length_pos.mpr hn
  have hlen : (split 44 V).length = (picturesFromLine L).length := by
    simpa [isVariableLine] using hcount
  obtain ⟨acc', hs⟩ := substitute_ok E dj _ _ rs acc L hr
  have htok : Tokenizes L (picturesFromLine L) := tokenizes_picturesFromLine L
  have hchain := replace_chain (picturesFromLine L) L [] rs htok (by simp)
    (renders_length E dj _ _ _ hr) hat
  simp only [List.nil_append] at hchain
  rw [hchain] at hs
  refine ⟨acc', ?_⟩
  conv_lhs => unfold processLines
  rw [hL]
  simp only [Bool.false_eq_true, if_false, isPictureLine_of_tokens hn, and_self, if_true]
  conv_lhs => unfold processLines
  rw [hV]
  simp only [Bool.false_eq_true, if_false]
  rw [if_neg (by omega), if_pos ⟨hpos, hcount⟩]
  simp only [variablesFromLine, hlen, ne_eq, not_true_eq_false, if_false, hs]

theorem process_positional_witness :
    ∃ acc', processLines flatExt demoCtx [str "@<< @<< x", str "row.a, row.b"] 0 [] [] none [] =
      processLines flatExt demoCtx [] 0 [] [] acc' (str "p   qq  x\n") :=
  process_positional flatExt demoCtx (str "@<< @<< x") (str "row.a, row.b") [] [] [] none []
    [str "p  ", str "qq "] (by decide) (by decide) (by decide) (by decide)
    ⟨by decide, by decide, trivial⟩ (by decide)

/-! ## The page schedule -/

theorem renderBody_stamps (E : Ext F J) (data : Option J) (s : PState F J) (item : Nat)
    (row : Option J) :
    (renderBody E data s item row).1.calls.map Call.stamp =
      s.calls.map Call.stamp ++ [⟨.body, s.page, item⟩] := by
  rw [(renderBody_calls E data s item row).1]
  simp [Call.stamp, Report.newState]

/-- Whether it completes or returns an error, an iteration of the row loop builds a
prefix of the contexts of `rowStamps`. -/
theorem processRow_stops (E : Ext F J) (data : Option J) (s : PState F J) (item : Nat)
    (row : Option J) :
    ∃ l, (processRow E data s item row).1.calls.map Call.stamp = s.calls.map Call.stamp ++ l ∧
      l <+: rowStamps s item := by
  unfold processRow
  rcases Step.andThen_cases (breakPage E data s item row)
    (fun s => renderBody E data s item row) with ⟨hne, h⟩ | ⟨heq, h⟩
  · rw [h]
    unfold breakPage at hne ⊢
    unfold rowStamps pageBreak
    by_cases hb : s.report.HeaderLayout ≠ [] ∧
      (s.page = 0 ∨ (0 < s.report.RowsPerPage ∧ (item : Int).tmod s.report.RowsPerPage = 0))
    · rw [if_pos hb, decide_eq_true hb, if_pos rfl]
      rcases Step.andThen_cases
        (if s.report.FooterLayout ≠ [] ∧ s.page ≠ 0 then
          Step.wrap .footerProcessing
            (renderSection E s .footer s.report.footerLines
              (s.report.newState s.page data row item))
        else (s, none))
        (fun s =>
          Step.wrap .headerProcessing
            (renderSection E { s with page := s.page + 1 } .header s.report.headerLines
              (s.report.newState (s.page + 1) data row item))) with ⟨hne1, h1⟩ | ⟨_, h1⟩
      · rw [h1]
        by_cases hfo : s.report.FooterLayout ≠ [] ∧ s.page ≠ 0
        · rw [if_pos hfo, if_pos hfo]
          exact ⟨[⟨.footer, s.page, item⟩],
            by simp [Step.wrap, renderSection, Call.stamp, Report.newState],
            ⟨_, rfl⟩⟩
        · rw [if_neg hfo] at hne1
          exact absurd rfl hne1
      · rw [h1]
        by_cases hfo : s.report.FooterLayout ≠ [] ∧ s.page ≠ 0
        · rw [if_pos hfo, if_pos hfo]
          exact ⟨[⟨.footer, s.page, item⟩, ⟨.header, s.page + 1, item⟩],
            by simp [Step.wrap, renderSection, Call.stamp, Report.newState],
            ⟨[⟨.body, s.page + 1, item⟩], rfl⟩⟩
        · rw [if_neg hfo, if_neg hfo]
          exact ⟨[⟨.header, s.page + 1, item⟩],
            by simp [Step.wrap, renderSection, Call.stamp, Report.newState],
            ⟨[⟨.body, s.page + 1, item⟩], rfl⟩⟩
    · rw [if_neg hb] at hne
      exact absurd rfl hne
  · rw [h]
    obtain ⟨a1, a2, a3⟩ := breakPage_ok E data s item row heq
    refine ⟨rowStamps s item, ?_, List.prefix_refl _⟩
    rw [renderBody_stamps, a3, a2]
    unfold rowStamps
    split <;> simp

/-- The contexts built by the row loop, whether it completes or returns an error, are a
prefix of the schedule. -/
theorem processRows_stops (E : Ext F J) (data : Option J) (p : Nat) (hp : 0 < p)
    (rows : List (Option J)) :
    ∀ (item : Nat) (s : PState F J), s.report.HeaderLayout ≠ [] → s.report.FooterLayout ≠ [] →
      s.report.RowsPerPage = p → s.page = ((item + p - 1) / p : Nat) →
      ∃ l, (processRows E data rows item s).1.calls.map Call.stamp = s.calls.map Call.stamp ++ l ∧
        l <+: (List.range' item rows.length).flatMap (rowSchedule p) := by
  induction rows with
  | nil =>
    intro item s _ _ _ _
    exact ⟨[], by simp [processRows], by simp⟩
  | cons row rows ih =>
    intro item s hh hf hrp hpage
    obtain ⟨hbreak, hst⟩ := rowStamps_eq_rowSchedule hp hh hf hrp hpage
    unfold processRows
    rcases Step.andThen_cases (processRow E data s item row)
      (fun s => processRows E data rows (item + 1) s) with ⟨_, h⟩ | ⟨heq, h⟩
    · rw [h]
      obtain ⟨l, h1, h2⟩ := processRow_stops E data s item row
      refine ⟨l, h1, ?_⟩
      rw [hst] at h2
      simp only [List.length_cons, List.range'_succ, List.flatMap_cons]
      exact h2.trans (List.prefix_append _ _)
    · rw [h]
      obtain ⟨⟨a1, a2, a3⟩, b, c⟩ := processRow_ok E data s item row heq
      have hpage' : (processRow E data s item row).1.page = ((item + 1 + p - 1) / p : Nat) := by
        rw [b, hbreak, hpage, ceilDiv_succ item hp]
        by_cases hm : item % p = 0
        · simp [hm, ceilDiv_of_mod_eq_zero hp hm]
        · simp [hm, ceilDiv_of_mod_ne_zero hp hm]
      obtain ⟨l, h1, h2⟩ := ih (item + 1) _ (a1 ▸ hh) (a2 ▸ hf) (a3.trans hrp) hpage'
      refine ⟨rowSchedule p item ++ l, ?_, ?_⟩
      · rw [h1, c, hst]
        simp
      · simp only [List.length_cons, List.range'_succ, List.flatMap_cons]
        exact (List.prefix_append_right_inj _).mpr h2

theorem process_stops (E : Ext F J) (r : Report F) (data : Option J)
    (rows : List (Option J)) (p : Nat) (hh : r.HeaderLayout ≠ [])
    (hf : r.FooterLayout ≠ []) (hp : 0 < p) (hrp : r.RowsPerPage = p) :
    (r.process E data rows).1.calls.map Call.stamp <+: pageSchedule p rows.length := by
  have h0 : ((0 : Int)) = ((0 + p - 1) / p : Nat) := by
    rw [Nat.div_eq_of_lt (by omega)]; rfl
  unfold Report.process
  rcases Step.andThen_cases (processRows E data rows 0 ⟨r, 0, [], []⟩)
    (trailingFooter E data rows.length) with ⟨_, h⟩ | ⟨heq, h⟩
  · rw [h]
    obtain ⟨l, h1, h2⟩ := processRows_stops E data p hp rows 0 ⟨r, 0, [], []⟩ hh hf hrp h0
    rw [h1]
    simp only [List.map_nil, List.nil_append, pageSchedule, List.range_eq_range']
    exact h2.trans (List.prefix_append _ _)
  · rw [h]
    obtain ⟨⟨a1, a2, a3⟩, b, c⟩ :=
      processRows_ok E data p hp rows 0 ⟨r, 0, [], []⟩ hh hf hrp h0 heq
    simp only at a2
    unfold trailingFooter
    rw [if_pos (a2 ▸ hf)]
    simp only [Step.wrap_fst, renderSection, List.map_append, c, pageSchedule,
      List.range_eq_range', List.map_nil, List.nil_append, List.map_cons, Call.stamp,
      Report.newState, b, Nat.zero_add]
    exact List.prefix_refl _

/-! ## The text written by `Report.process` -/

/-- The loop of `formatter.process` appends to its writer: on a writer that holds `w` it
leaves `w` followed by what it leaves on an empty one, with the same accumulator and
error. -/
theorem processLines_writer (E : Ext F J) (dj : Ctx F J) :
    ∀ (lines : List GoString) (numVars : Nat) (pictures : List GoString) (fmtLine : GoString)
      (acc : Option (Acc F)) (w : GoString),
      processLines E dj lines numVars pictures fmtLine acc w =
        ⟨(processLines E dj lines numVars pictures fmtLine acc []).acc,
          w ++ (processLines E dj lines numVars pictures fmtLine acc []).out,
          (processLines E dj lines numVars pictures fmtLine acc []).err⟩ := by
  intro lines
  induction lines with
  | nil => intro numVars pictures fmtLine acc w; simp [processLines]
  | cons line rest ih =>
    intro numVars pictures fmtLine acc w
    have hstep : ∀ (n : Nat) (ps : List GoString) (fl : GoString) (a : Option (Acc F))
        (x : GoString),
        processLines E dj rest n ps fl a (w ++ x ++ [10]) =
          ⟨(processLines E dj rest n ps fl a ([] ++ x ++ [10])).acc,
            w ++ (processLines E dj rest n ps fl a ([] ++ x ++ [10])).out,
            (processLines E dj rest n ps fl a ([] ++ x ++ [10])).err⟩ := by
      intro n ps fl a x
      rw [ih n ps fl a (w ++ x ++ [10]), ih n ps fl a ([] ++ x ++ [10])]
      simp
    unfold processLines
    by_cases hc : isCommentLine line = true
    · simp only [hc, if_true]
      exact ih _ _ _ _ _
    · simp only [hc, Bool.false_eq_true, if_false]
      by_cases hp : numVars = 0 ∧ isPictureLine line = true
      · rw [if_pos hp, if_pos hp]
        exact ih _ _ _ _ _
      · rw [if_neg hp, if_neg hp]
        by_cases hv : 0 < numVars ∧ isVariableLine line numVars = true
        · rw [if_pos hv, if_pos hv]
          cases variablesFromLine E line numVars with
          | error e => simp
          | ok vars =>
            simp only
            cases hs : substitute E dj pictures vars acc fmtLine with
            | mk acc1 res =>
              cases res with
              | error e => simp
              | ok l => exact hstep 0 [] [] acc1 l
        · rw [if_neg hv, if_neg hv]
          exact hstep _ _ _ _ _

theorem formatterProcess_writer (E : Ext F J) (f : Formatter F) (w : GoString)
    (ctx : Ctx F J) :
    (Formatter.process E f w ctx).out = w ++ (Formatter.process E f [] ctx).out := by
  unfold Formatter.process
  split
  · rw [processLines_writer]
  · simp

/-- Rendering a header or a footer of the report keeps the writer in step with the
contexts, whether it returns an error or not. -/
theorem renderSection_written (E : Ext F J) (r : Report F) (s : PState F J) (sec : Section)
    (ctx : Ctx F J) (hsec : sec ≠ .body) (h : Written E r s) (page : Int) :
    Written E r (renderSection E { s with page := page } sec (sectionLines s.report sec) ctx).1 := by
  obtain ⟨h1, h2, h3, h4⟩ := h
  refine ⟨h1, h2, h3, ?_⟩
  have hl : sectionLines s.report sec = sectionLines r sec := by
    cases sec
    · exact h1
    · exact h2
    · exact h3
  simp only [renderSection, List.flatMap_append, List.flatMap_cons, List.flatMap_nil,
    List.append_nil]
  rw [formatterProcess_writer, h4, hl]
  simp [sectionText, hsec]

theorem breakPage_written (E : Ext F J) (r : Report F) (data : Option J) (s : PState F J)
    (item : Nat) (row : Option J) (h : Written E r s) :
    Written E r (breakPage E data s item row).1 := by
  have hfoot : Written E r
      (if s.report.FooterLayout ≠ [] ∧ s.page ≠ 0 then
        Step.wrap .footerProcessing
          (renderSection E s .footer s.report.footerLines
            (s.report.newState s.page data row item))
      else (s, none)).1 := by
    split
    · exact renderSection_written E r s .footer _ (by decide) h s.page
    · exact h
  unfold breakPage
  split
  · rcases Step.andThen_cases
      (if s.report.FooterLayout ≠ [] ∧ s.page ≠ 0 then
        Step.wrap .footerProcessing
          (renderSection E s .footer s.report.footerLines
            (s.report.newState s.page data row item))
      else (s, none))
      (fun s =>
        Step.wrap .headerProcessing
          (renderSection E { s with page := s.page + 1 } .header s.report.headerLines
            (s.report.newState (s.page + 1) data row item))) with ⟨_, h1⟩ | ⟨_, h1⟩
    · rw [h1]
      exact hfoot
    · rw [h1]
      exact renderSection_written E r _ .header _ (by decide) hfoot _
  · exact h

/-- A body row rendered without error keeps the writer in step with the contexts. -/
theorem renderBody_written (E : Ext F J) (r : Report F) (data : Option J) (s : PState F J)
    (item : Nat) (row : Option J) (h : Written E r s)
    (hok : (renderBody E data s item row).2 = none) :
    Written E r (renderBody E data s item row).1 := by
  obtain ⟨h1, h2, h3, h4⟩ := h
  have htext : ∀ out, (Formatter.processBytes E ⟨s.report.bodyLines, some s.report.accumulator⟩
      (s.report.newState s.page data row item)).2 = .ok out →
      sectionText E r ⟨.body, s.report.newState s.page data row item⟩ = out := by
    intro out hout
    unfold Formatter.processBytes at hout
    simp only at hout
    split at hout
    · cases hout
    · simp only [Except.ok.injEq] at hout
      rw [← hout]
      simp [sectionText, sectionLines, h3, Report.newState]
  unfold renderBody at hok ⊢
  simp only at hok ⊢
  split at hok
  · cases hok
  · rename_i out hout
    have ht := htext out hout
    split
    · refine ⟨h1, h2, h3, ?_⟩
      simp only [List.flatMap_append, List.flatMap_cons, List.flatMap_nil, List.append_nil]
      rw [h4, ht]
    · rename_i hlen
      have : out = [] := List.length_eq_zero.mp (by omega)
      refine ⟨h1, h2, h3, ?_⟩
      simp only [List.flatMap_append, List.flatMap_cons, List.flatMap_nil, List.append_nil]
      rw [h4, ht, this, List.append_nil]

theorem processRows_written (E : Ext F J) (r : Report F) (data : Option J) :
    ∀ (rest : List (Option J)) (item : Nat) (s : PState F J), Written E r s →
      (processRows E data rest item s).2 = none →
      Written E r (processRows E data rest item s).1 := by
  intro rest
  induction rest with
  | nil => intro item s h _; exact h
  | cons row rest ih =>
    intro item s h hok
    unfold processRows at hok ⊢
    obtain ⟨h1, h2, h3⟩ := Step.andThen_ok hok
    rw [h3]
    refine ih (item + 1) _ ?_ h2
    unfold processRow at h1 ⊢
    obtain ⟨_, b2, b3⟩ := Step.andThen_ok h1
    rw [b3]
    exact renderBody_written E r data _ item row (breakPage_written E r data s item row h) b2

/-- After a run of `Report.process` without error the writer holds, in the order in which
the contexts were built, the text of each layout rendered in its context. -/
theorem process_written (E : Ext F J) (r : Report F) (data : Option J)
    (rows : List (Option J)) (hok : (r.process E data rows).2 = none) :
    (r.process E data rows).1.out =
      (r.process E data rows).1.calls.flatMap (sectionText E r) := by
  unfold Report.process at hok ⊢
  obtain ⟨h1, _, h3⟩ := Step.andThen_ok hok
  rw [h3]
  have hw := processRows_written E r data rows 0 ⟨r, 0, [], []⟩ ⟨rfl, rfl, rfl, rfl⟩ h1
  unfold trailingFooter
  split
  · exact (renderSection_written E r _ .footer _ (by decide) hw _).2.2.2
  · exact hw.2.2.2

/-- C2: with non-empty header and footer layouts, `p > 0` rows per page and `N > 0` rows,
`Report.process` builds its contexts in the order of the page schedule: before row
`i = (k-1)p` the header with page `k`, preceded for `k > 1` by the footer with page `k-1`;
row `i` with page `i/p + 1`; at the end the footer with page `ceil(N/p)` and row index `N`.
A run that returns an error stops within the schedule; a run that returns none builds all
of it, renders `ceil(N/p)` headers and `ceil(N/p)` footers, and the text it has written is,
in the order of the schedule, the rendering of each layout in its context: the text of
header `k` stands right before the text of body row `(k-1)p`. -/
theorem process_pageSchedule (E : Ext F J) (r : Report F) (data : Option J)
    (rows : List (Option J)) (p : Nat) (hrows : rows ≠ []) (hh : r.HeaderLayout ≠ [])
    (hf : r.FooterLayout ≠ []) (hp : 0 < p) (hrp : r.RowsPerPage = p) :
    (r.process E data rows).1.calls.map Call.stamp <+: pageSchedule p rows.length ∧
    ((r.process E data rows).2 = none →
      (r.process E data rows).1.calls.map Call.stamp = pageSchedule p rows.length ∧
      ((r.process E data rows).1.calls.map Call.stamp).countP
        (fun x => decide (x.sec = Section.header)) = (rows.length + p - 1) / p ∧
      ((r.process E data rows).1.calls.map Call.stamp).countP
        (fun x => decide (x.sec = Section.footer)) = (rows.length + p - 1) / p ∧
      (r.process E data rows).1.out =
        (r.process E data rows).1.calls.flatMap (sectionText E r)) :=
  ⟨process_stops E r data rows p hh hf hp hrp, fun hok =>
    ⟨(process_schedule_ok E r data rows p hrows hh hf hp hrp hok).1,
      (process_schedule_ok E r data rows p hrows hh hf hp hrp hok).2.1,
      (process_schedule_ok E r data rows p hrows hh hf hp hrp hok).2.2,
      process_written E r data rows hok⟩⟩

theorem process_pageSchedule_witness :
    (demoReport.process flatExt none demoRows).1.calls.map Call.stamp = pageSchedule 2 3 ∧
    ((demoReport.process flatExt none demoRows).1.calls.map Call.stamp).countP
      (fun x => decide (x.sec = Section.header)) = 2 ∧
    ((demoReport.process flatExt none demoRows).1.calls.map Call.stamp).countP
      (fun x => decide (x.sec = Section.footer)) = 2 ∧
    (demoReport.process flatExt none demoRows).1.out =
      (demoReport.process flatExt none demoRows).1.calls.flatMap
        (sectionText flatExt demoReport) ∧
    (demoReport.process flatExt none demoRows).1.out =
      str "Page 1  \n5   ab  \n7   cd  \n12   \nPage 2  \n1   e   \n13   \n" :=
  have h := (process_pageSchedule flatExt demoReport none demoRows 2 (by decide) (by decide)
    (by decide) (by decide) (by decide)).2 (by decide)
  ⟨h.1, h.2.1, h.2.2.1, h.2.2.2, by decide⟩

/-! ## Missing values and unknown number formats -/

/-- C11: for a non-empty token `T`, `formatDataItem` on a missing value and on a JSON null
returns `?` followed by `len(T) - 1` spaces, and no error. -/
theorem formatDataItem_missing (E : Ext F J) (T : GoString) (hT : T ≠ []) :
    formatDataItem E .missing T = .ok (63 :: List.replicate (T.length - 1) 32) ∧
    formatDataItem E .null T = .ok (63 :: List.replicate (T.length - 1) 32) := by
  have hpos : 0 < T.length := List.length_pos.mpr hT
  have e : (T.length : Int) - 1 = ((T.length - 1 : Nat) : Int) := by omega
  constructor <;>
    simp only [formatDataItem, e, goRepeat_natCast, bind, Except.bind, pure, Except.pure]

theorem formatDataItem_missing_witness :
    formatDataItem flatExt .missing (str "@<<<") = .ok (str "?   ") ∧
    formatDataItem flatExt .null (str "@<<<") = .ok (str "?   ") :=
  formatDataItem_missing flatExt (str "@<<<") (by decide)

/-- C12, counterexample: the token `@<.#` has the second character `<`, yet a number is
rendered by the fixed-point rule, without error, because the token contains a `.`. -/
theorem unknownNumberFormat_counterexample :
    (str "@<.#").get? 1 = some 60 ∧
    formatNumber flatExt (.float 1) (str "@<.#") = .ok (str "1.0 ") ∧
    formatDataItem flatExt (.number 1 1) (str "@<.#") = .ok (str "1.0 ") := by
  decide

/-- C12 (amended): for every number and every token `T` of length at least 2 whose second
character is none of `0`, `#`, `,` and `B` and which contains no `.` anywhere, `formatNumber`
and `formatDataItem` return the unknown number format error. -/
theorem formatNumber_unknown (E : Ext F J) (T : GoString) (c : Nat) (hc : T.get? 1 = some c)
    (h0 : c ≠ 48) (h1 : c ≠ 35) (h2 : c ≠ 44) (h3 : c ≠ 66) (hdot : 46 ∉ T) :
    (∀ v : NumArg F, formatNumber E v T = .error (.unknownNumberFormat T)) ∧
    (∀ (f : F) (i : Int),
      formatDataItem E (.number f i) T = .error (.unknownNumberFormat T)) := by
  have hr : ∀ v : NumArg F, formatNumber E v T = .error (.unknownNumberFormat T) := by
    intro v
    unfold formatNumber renderNumber
    rw [hc]
    simp [h0, h1, h2, h3, containsByte_eq_false hdot]
  refine ⟨hr, ?_⟩
  intro f i
  unfold formatDataItem
  simp only [containsByte_eq_false hdot, Bool.false_eq_true, if_false]
  exact hr _

theorem formatNumber_unknown_witness :
    (∀ v : NumArg Int, formatNumber flatExt v (str "@<<<")
      = .error (.unknownNumberFormat (str "@<<<"))) ∧
    (∀ (f : Int) (i : Int), formatDataItem flatExt (.number f i) (str "@<<<")
      = .error (.unknownNumberFormat (str "@<<<"))) :=
  formatNumber_unknown flatExt (str "@<<<") 60 (by decide) (by decide) (by decide) (by decide)
    (by decide) (by decide)

/-! ## Line classification -/

/-- C13, failing input: the line `a^b` is not a comment and holds no token, yet
`formatter.process` emits nothing for it, whereas it emits the line `ab`. -/
theorem caretLine_dropped :
    isCommentLine (str "a^b") = false ∧ picturesFromLine (str "a^b") = [] ∧
    isPictureLine (str "a^b") = true ∧
    (Formatter.process flatExt ⟨[str "a^b"], none⟩ [] demoCtx).out = [] ∧
    (Formatter.process flatExt ⟨[str "a^b"], none⟩ [] demoCtx).err = none ∧
    (Formatter.process flatExt ⟨[str "ab"], none⟩ [] demoCtx).out = str "ab\n" := by
  decide

/-- C17, failing input: the line `@ x` yields the token `@`, and formatting a number or
the empty string with it reads `format[1]` outside the token. -/
theorem shortToken_panics :
    picturesFromLine (str "@ x") = [str "@"] ∧
    formatDataItem flatExt (.number 5 5) (str "@") = .error .panicIndex ∧
    formatDataItem flatExt (.string []) (str "@") = .error .panicIndex := by
  decide

theorem picturesFromLine_of_not_mem {line : GoString} (h : 64 ∉ line) :
    picturesFromLine line = [] :=
  (picturesFromLine_eq_scan line).trans (tokenizes_unique [] line h).symm

theorem not_mem_of_isPictureLine {line : GoString} (h : isPictureLine line = false) :
    64 ∉ line := by
  intro hmem
  have : isPictureLine line = true := by
    unfold isPictureLine containsAny
    rw [List.any_eq_true]
    exact ⟨64, hmem, by decide⟩
  rw [h] at this
  cases this

/-- C20, counterexample: with two pictures pending, the line `Total @` has one field, so
it is not the variable line and is passed through verbatim, and it holds the token `@`. -/
theorem passthrough_counterexample :
    isCommentLine (str "Total @") = false ∧
    isVariableLine (str "Total @") (picturesFromLine (str "@## @##")).length = false ∧
    (Formatter.process flatExt ⟨[str "@## @##", str "Total @"], none⟩ [] demoCtx).out
      = str "Total @\n" ∧
    picturesFromLine (str "Total @") = [str "@"] := by
  decide

/-- C20 (amended): with no pictures pending, the line that `formatter.process` emits
through its literal-passthrough branch (a line that is neither a comment nor a picture
line) yields zero picture tokens when tokenized again. -/
theorem passthrough_idle (E : Ext F J) (dj : Ctx F J) (line : GoString)
    (rest pictures : List GoString) (fmtLine : GoString) (acc : Option (Acc F))
    (w : GoString) (hc : isCommentLine line = false) (hp : isPictureLine line = false) :
    processLines E dj (line :: rest) 0 pictures fmtLine acc w =
      processLines E dj rest 0 pictures fmtLine acc (w ++ line ++ [10]) ∧
    picturesFromLine line = [] := by
  refine ⟨?_, picturesFromLine_of_not_mem (not_mem_of_isPictureLine hp)⟩
  conv_lhs => unfold processLines
  simp [hc, hp]

theorem passthrough_idle_witness :
    processLines flatExt demoCtx [str "Total"] 0 [] [] none [] =
      processLines flatExt demoCtx [] 0 [] [] none (str "Total\n") ∧
    picturesFromLine (str "Total") = [] :=
  passthrough_idle flatExt demoCtx (str "Total") [] [] [] none [] (by decide) (by decide)

/-! ## Pairing of pictures and variables -/

theorem variablesFromLine_of_isVariableLine (E : Ext F J) (line : GoString) (n : Nat)
    (h : isVariableLine line n = true) :
    variablesFromLine E line n = .ok ((split 44 line).map E.trimSpace) ∧
    ((split 44 line).map E.trimSpace).length = n := by
  have hlen : (split 44 line).length = n := by simpa [isVariableLine] using h
  simp [variablesFromLine, hlen]

/-- With as many variables as pictures, the only error of the substitution loop is that of
a value that does not render: no picture is left without a variable. -/
theorem substitute_error (E : Ext F J) (dj : Ctx F J) :
    ∀ (ps vs : List GoString) (acc : Option (Acc F)) (line : GoString) (e : Fault),
      ps.length = vs.length → (substitute E dj ps vs acc line).2 = .error e →
      ∃ v p c, e = .couldNotRender v p c := by
  intro ps
  induction ps with
  | nil => intro vs acc line e _ h; simp [substitute] at h
  | cons p ps ih =>
    intro vs acc line e hlen h
    cases vs with
    | nil => simp at hlen
    | cons v vs =>
      unfold substitute at h
      simp only at h
      split at h
      · rename_i c _
        simp only [Except.error.injEq] at h
        exact ⟨v, p, c, h.symm⟩
      · exact ih vs _ _ e (by simpa using hlen) h

/-- The only error that the loop of `formatter.process` returns is that of a value that
does not render: never the variable count error of `variablesFromLine`. -/
theorem processLines_error (E : Ext F J) (dj : Ctx F J) :
    ∀ (lines : List GoString) (numVars : Nat) (pictures : List GoString) (fmtLine : GoString)
      (acc : Option (Acc F)) (w : GoString) (e : Fault), numVars = pictures.length →
      (processLines E dj lines numVars pictures fmtLine acc w).err = some e →
      ∃ v p c, e = .couldNotRender v p c := by
  intro lines
  induction lines with
  | nil => intro numVars pictures fmtLine acc w e _ h; simp [processLines] at h
  | cons line rest ih =>
    intro numVars pictures fmtLine acc w e hnv h
    unfold processLines at h
    by_cases hc : isCommentLine line = true
    · rw [if_pos hc] at h
      exact ih _ _ _ _ _ e hnv h
    · rw [if_neg hc] at h
      by_cases hp : numVars = 0 ∧ isPictureLine line = true
      · rw [if_pos hp] at h
        exact ih _ _ _ _ _ e rfl h
      · rw [if_neg hp] at h
        by_cases hv : 0 < numVars ∧ isVariableLine line numVars = true
        · rw [if_pos hv] at h
          obtain ⟨h1, h2⟩ := variablesFromLine_of_isVariableLine E line numVars hv.2
          rw [h1] at h
          simp only at h
          cases hs : substitute E dj pictures ((split 44 line).map E.trimSpace) acc fmtLine with
          | mk acc1 res =>
            rw [hs] at h
            cases res with
            | error e1 =>
              simp only [Option.some.injEq] at h
              subst h
              exact substitute_error E dj pictures _ acc fmtLine e1 (by rw [h2, hnv])
                (by rw [hs])
            | ok l => exact ih 0 [] [] acc1 _ e rfl h
        · rw [if_neg hv] at h
          exact ih _ _ _ _ _ e hnv h

/-- C19: a line that passes the test `isVariableLine` for the pending pictures yields
exactly as many trimmed paths, without error; after a picture line `L` the matching line
`V` is handed to the substitution loop with one path for each token of `L`; a line whose
field count differs from the number of pending pictures is passed through and the
pictures stay pending; and `formatter.process` never returns the invalid variable count
error (it fails only in `json.Marshal` or on a value that does not render). -/
theorem variableLine_paired (E : Ext F J) (dj : Ctx F J) :
    (∀ (line : GoString) (n : Nat), isVariableLine line n = true →
      ∃ vars, variablesFromLine E line n = .ok vars ∧ vars.length = n) ∧
    (∀ (L V : GoString) (rest pictures : List GoString) (fmtLine : GoString)
      (acc : Option (Acc F)) (w : GoString),
      isCommentLine L = false → picturesFromLine L ≠ [] → isCommentLine V = false →
      isVariableLine V (picturesFromLine L).length = true →
      ∃ vars, vars.length = (picturesFromLine L).length ∧
        variablesFromLine E V (picturesFromLine L).length = .ok vars ∧
        processLines E dj (L :: V :: rest) 0 pictures fmtLine acc w =
          match substitute E dj (picturesFromLine L) vars acc L with
          | (acc, .error e) => ⟨acc, w, some e⟩
          | (acc, .ok line) => processLines E dj rest 0 [] [] acc (w ++ line ++ [10])) ∧
    (∀ (line : GoString) (rest pictures : List GoString) (n : Nat) (fmtLine : GoString)
      (acc : Option (Acc F)) (w : GoString),
      0 < n → isCommentLine line = false → isVariableLine line n = false →
      processLines E dj (line :: rest) n pictures fmtLine acc w =
        processLines E dj rest n pictures fmtLine acc (w ++ line ++ [10])) ∧
    (∀ (f : Formatter F) (w : GoString) (e : Fault),
      (Formatter.process E f w dj).err = some e →
      e = .marshal ∨ ∃ v p c, e = .couldNotRender v p c) := by
  refine ⟨?_, ?_, ?_, ?_⟩
  · intro line n h
    exact ⟨_, variablesFromLine_of_isVariableLine E line n h⟩
  · intro L V rest pictures fmtLine acc w hL hn hV hcount
    obtain ⟨h1, h2⟩ := variablesFromLine_of_isVariableLine E V _ hcount
    have hpos : 0 < (picturesFromLine L).length := List.length_pos.mpr hn
    refine ⟨_, h2, h1, ?_⟩
    conv_lhs => unfold processLines
    rw [hL]
    simp only [Bool.false_eq_true, if_false, isPictureLine_of_tokens hn, and_self, if_true]
    conv_lhs => unfold processLines
    rw [hV]
    simp only [Bool.false_eq_true, if_false]
    rw [if_neg (by omega), if_pos ⟨hpos, hcount⟩, h1]
  · intro line rest pictures n fmtLine acc w hn hc hv
    conv_lhs => unfold processLines
    rw [hc, hv]
    simp only [Bool.false_eq_true, if_false, and_false]
    rw [if_neg (by omega)]
  · intro f w e h
    unfold Formatter.process at h
    split at h
    · exact Or.inr (processLines_error E dj _ 0 [] [] _ _ e rfl h)
    · simp only [Option.some.injEq] at h
      exact Or.inl h.symm

theorem variableLine_paired_witness :
    (∃ vars, variablesFromLine flatExt (str "row.a, row.b") 2 = .ok vars ∧ vars.length = 2) ∧
    processLines flatExt demoCtx [str "a,b,c"] 2 [str "@<", str "@<"] (str "@< @<") none [] =
      processLines flatExt demoCtx [] 2 [str "@<", str "@<"] (str "@< @<") none
        (str "a,b,c\n") :=
  ⟨(variableLine_paired flatExt demoCtx).1 (str "row.a, row.b") 2 (by decide),
    (variableLine_paired flatExt demoCtx).2.2.1 (str "a,b,c") [] [str "@<", str "@<"] 2
      (str "@< @<") none [] (by decide) (by decide) (by decide)⟩

/-! ## Width of a rendered line -/

theorem formatDataItem_length_of_token {E : Ext F J} {V : Value F} {T s : GoString}
    (hT : isPictureToken T = true) (h : formatDataItem E V T = .ok s) :
    s.length = T.length := by
  have hl := getLastD_lt_of_isPictureToken hT
  unfold formatDataItem at h
  split at h
  · exact formatMissing_length h
  · exact formatMissing_length h
  · exact formatString_length hl h
  · split at h <;> exact formatNumber_length h
  · exact formatString_length hl h
  · exact formatString_length hl h
  · cases h

theorem replaceFirst_length (old new : GoString) (h : new.length = old.length) :
    ∀ s : GoString, (replaceFirst s old new).length = s.length := by
  intro s
  induction s with
  | nil =>
    unfold replaceFirst
    split
    · rename_i hp
      rw [List.isPrefixOf_iff_prefix] at hp
      have : old = [] := List.prefix_nil.mp hp
      subst this
      have : new = [] := List.length_eq_zero.mp h
      simp [this]
    · rfl
  | cons c cs ih =>
    unfold replaceFirst
    split
    · rename_i hp
      rw [List.isPrefixOf_iff_prefix] at hp
      have hle := hp.length_le
      simp only [List.length_append, List.length_drop, h]
      omega
    · simp [ih]

/-- A substitution loop that succeeds on picture tokens keeps the length of the line. -/
theorem substitute_length (E : Ext F J) (dj : Ctx F J) :
    ∀ (ps vs : List GoString) (acc : Option (Acc F)) (line : GoString)
      (acc' : Option (Acc F)) (out : GoString), (∀ t ∈ ps, isPictureToken t = true) →
      substitute E dj ps vs acc line = (acc', .ok out) → out.length = line.length := by
  intro ps
  induction ps with
  | nil =>
    intro vs acc line acc' out _ h
    simp [substitute] at h
    rw [h.2]
  | cons p ps ih =>
    intro vs acc line acc' out hps h
    cases vs with
    | nil => simp [substitute] at h
    | cons v vs =>
      unfold substitute at h
      simp only at h
      split at h
      · cases h
      · rename_i rendered hr
        rw [ih vs _ _ acc' out (fun t ht => hps t (List.mem_cons_of_mem _ ht)) h]
        exact replaceFirst_length p rendered
          (formatDataItem_length_of_token (hps p (by simp)) hr) line

/-- C18: for a picture line `L` (not a comment, with at least one token) and a matching
variable line `V`, when all substitutions succeed the line that `formatter.process` emits
has the byte length of `L`, whatever the values and the context. -/
theorem process_width (E : Ext F J) (dj : Ctx F J) (L V : GoString)
    (rest pictures : List GoString) (fmtLine : GoString) (acc acc' : Option (Acc F))
    (w out : GoString) (hL : isCommentLine L = false) (hV : isCommentLine V = false)
    (hn : picturesFromLine L ≠ [])
    (hcount : isVariableLine V (picturesFromLine L).length = true)
    (hs : substitute E dj (picturesFromLine L) ((split 44 V).map E.trimSpace) acc L
      = (acc', .ok out)) :
    processLines E dj (L :: V :: rest) 0 pictures fmtLine acc w =
      processLines E dj rest 0 [] [] acc' (w ++ out ++ [10]) ∧
    out.length = L.length := by
  have hpos : 0 < (picturesFromLine L).length := List.length_pos.mpr hn
  obtain ⟨h1, _⟩ := variablesFromLine_of_isVariableLine E V _ hcount
  refine ⟨?_, substitute_length E dj _ _ acc L acc' out
    (fun t ht => (tokenizes_tokens _ L (tokenizes_picturesFromLine L) t ht).1) hs⟩
  conv_lhs => unfold processLines
  rw [hL]
  simp only [Bool.false_eq_true, if_false, isPictureLine_of_tokens hn, and_self, if_true]
  conv_lhs => unfold processLines
  rw [hV]
  simp only [Bool.false_eq_true, if_false]
  rw [if_neg (by omega), if_pos ⟨hpos, hcount⟩, h1]
  simp only [hs]

theorem process_width_witness :
    processLines flatExt demoCtx [str "@<< @<< x", str "row.a, row.b"] 0 [] [] none [] =
      processLines flatExt demoCtx [] 0 [] [] none (str "p   qq  x\n") ∧
    (str "p   qq  x").length = (str "@<< @<< x").length :=
  process_width flatExt demoCtx (str "@<< @<< x") (str "row.a, row.b") [] [] [] none none []
    (str "p   qq  x") (by decide) (by decide) (by decide) (by decide) (by rfl)

/-! ## The row entry of a context -/

/-- Every context that an iteration of the row loop builds comes from `newState` with the
row and the index of the iteration. -/
theorem processRow_calls (E : Ext F J) (data : Option J) (s : PState F J) (item : Nat)
    (row : Option J) :
    ∀ c ∈ (processRow E data s item row).1.calls,
      c ∈ s.calls ∨ ∃ sec page, ∃ r : Report F, c = ⟨sec, r.newState page data row item⟩ := by
  obtain ⟨hbr, hbc⟩ := breakPage_frame E data s item row
  have h1 : ∀ c ∈ (breakPage E data s item row).1.calls,
      c ∈ s.calls ∨ ∃ sec page, ∃ r : Report F, c = ⟨sec, r.newState page data row item⟩ := by
    intro c hc
    rcases hbc c hc with h | ⟨sec, page, h⟩
    · exact Or.inl h
    · exact Or.inr ⟨sec, page, s.report, h⟩
  unfold processRow
  rcases Step.andThen_cases (breakPage E data s item row)
    (fun s => renderBody E data s item row) with ⟨_, h⟩ | ⟨_, h⟩
  · rw [h]
    exact h1
  · rw [h, (renderBody_calls E data _ item row).1]
    intro c hc
    rcases List.mem_append.mp hc with h2 | h2
    · exact h1 c h2
    · exact Or.inr ⟨_, _, _, List.mem_singleton.mp h2⟩

theorem processRows_calls (E : Ext F J) (data : Option J) (rows : List (Option J)) :
    ∀ (rest pre : List (Option J)) (s : PState F J), rows = pre ++ rest →
      ∀ c ∈ (processRows E data rest pre.length s).1.calls,
        c ∈ s.calls ∨ ∃ sec page i row, ∃ r : Report F,
          c = ⟨sec, r.newState page data row i⟩ ∧ rows.get? i = some row := by
  intro rest
  induction rest with
  | nil => intro pre s _ c hc; exact Or.inl hc
  | cons row rest ih =>
    intro pre s hrows
    have hget : rows.get? pre.length = some row := by
      rw [hrows, List.get?_eq_getElem?, List.getElem?_append_right (Nat.le_refl _)]
      simp
    have h1 : ∀ c ∈ (processRow E data s pre.length row).1.calls,
        c ∈ s.calls ∨ ∃ sec page i row, ∃ r : Report F,
          c = ⟨sec, r.newState page data row i⟩ ∧ rows.get? i = some row := by
      intro c hc
      rcases processRow_calls E data s pre.length row c hc with h | ⟨sec, page, r, h⟩
      · exact Or.inl h
      · exact Or.inr ⟨sec, page, pre.length, row, r, h, hget⟩
    unfold processRows
    rcases Step.andThen_cases (processRow E data s pre.length row)
      (fun s => processRows E data rest (pre.length + 1) s) with ⟨_, h⟩ | ⟨_, h⟩
    · rw [h]
      exact h1
    · rw [h]
      intro c hc
      have := ih (pre ++ [row]) (processRow E data s pre.length row).1 (by simp [hrows])
      simp only [List.length_append, List.length_singleton] at this
      rcases this c hc with h2 | h2
      · exact h1 c h2
      · exact Or.inr h2

/-- C14, counterexample: in the run of `demoReport` on three rows the header before row 0
and the footer and header at the page break before row 2 are rendered with a row that is
not nil; only the trailing footer has none. -/
theorem rowEntry_counterexample :
    ((demoReport.process flatExt none demoRows).1.calls.filter
        (fun c => decide (c.sec ≠ Section.body))).map
      (fun c => (c.sec, c.ctx.currentRow, c.ctx.row.isSome)) =
    [(.header, 0, true), (.footer, 2, true), (.header, 2, true), (.footer, 3, false)] := by
  decide

/-- C14 (amended): in every context that `Report.process` builds, the `row` entry is the
row at the context's row index (so the header and the footer of a page break carry the
row about to be rendered), except in the trailing footer, where it is nil. -/
theorem process_rowEntry (E : Ext F J) (r : Report F) (data : Option J)
    (rows : List (Option J)) :
    ∀ c ∈ (r.process E data rows).1.calls, RowEntry rows c := by
  have h1 : ∀ c ∈ (processRows E data rows 0 ⟨r, 0, [], []⟩).1.calls, RowEntry rows c := by
    intro c hc
    rcases processRows_calls E data rows rows [] ⟨r, 0, [], []⟩ rfl c hc with h | h
    · simp at h
    · obtain ⟨sec, page, i, row, r', rfl, hget⟩ := h
      exact Or.inl hget
  unfold Report.process
  rcases Step.andThen_cases (processRows E data rows 0 ⟨r, 0, [], []⟩)
    (trailingFooter E data rows.length) with ⟨_, h⟩ | ⟨_, h⟩
  · rw [h]
    exact h1
  · rw [h]
    unfold trailingFooter
    split
    · intro c hc
      simp only [Step.wrap, renderSection, List.mem_append, List.mem_singleton] at hc
      rcases hc with hc | hc
      · exact h1 c hc
      · rw [hc]
        exact Or.inr ⟨rfl, rfl, rfl⟩
    · exact h1

theorem process_rowEntry_witness :
    RowEntry demoRows
      ((demoReport.process flatExt none demoRows).1.calls.get ⟨6, by decide⟩) :=
  process_rowEntry flatExt demoReport none demoRows _ (List.get_mem _ _ _)

/-! ## Page numbers -/

theorem rowStamps_page {s : PState F J} (item : Nat) (hh : s.report.HeaderLayout ≠ [])
    (hpage : 0 ≤ s.page) : ∀ st ∈ rowStamps s item, 1 ≤ st.page := by
  intro st hst
  unfold rowStamps at hst
  by_cases hb : pageBreak s item = true
  · rw [if_pos hb] at hst
    rcases List.mem_append.mp hst with h | h
    · split at h
      · rename_i hfo
        rw [List.mem_singleton.mp h]
        have := hfo.2
        show 1 ≤ s.page
        omega
      · simp at h
    · simp only [List.mem_cons, List.mem_singleton, List.not_mem_nil, or_false] at h
      rcases h with rfl | rfl <;> (show 1 ≤ s.page + 1) <;> omega
  · rw [if_neg hb] at hst
    rw [List.mem_singleton.mp hst]
    show 1 ≤ s.page
    have h0 : s.page ≠ 0 := by
      intro h0
      apply hb
      unfold pageBreak
      exact decide_eq_true ⟨hh, Or.inl h0⟩
    omega

/-- With a header layout, an iteration of the row loop builds contexts with a page number
of at least 1 only, and leaves a page counter of at least 1. -/
theorem processRow_pages (E : Ext F J) (data : Option J) (s : PState F J) (item : Nat)
    (row : Option J) (hh : s.report.HeaderLayout ≠ []) (hpage : 0 ≤ s.page)
    (hcalls : ∀ c ∈ s.calls, 1 ≤ c.ctx.page) :
    (∀ c ∈ (processRow E data s item row).1.calls, 1 ≤ c.ctx.page) ∧
    ((processRow E data s item row).2 = none →
      1 ≤ (processRow E data s item row).1.page ∧
      (processRow E data s item row).1.report.HeaderLayout ≠ []) := by
  constructor
  · intro c hc
    obtain ⟨l, h1, h2⟩ := processRow_stops E data s item row
    have hmem : c.stamp ∈ (processRow E data s item row).1.calls.map Call.stamp :=
      List.mem_map_of_mem _ hc
    rw [h1] at hmem
    rcases List.mem_append.mp hmem with h | h
    · obtain ⟨c0, hc0, he⟩ := List.mem_map.mp h
      have : c0.ctx.page = c.ctx.page := congrArg Stamp.page he
      rw [← this]
      exact hcalls c0 hc0
    · exact rowStamps_page item hh hpage c.stamp (h2.subset h)
  · intro hok
    obtain ⟨⟨a1, _, _⟩, b, _⟩ := processRow_ok E data s item row hok
    refine ⟨?_, a1 ▸ hh⟩
    rw [b]
    split
    · omega
    · rename_i hb
      have h0 : s.page ≠ 0 := by
        intro h0
        apply hb
        unfold pageBreak
        exact decide_eq_true ⟨hh, Or.inl h0⟩
      omega

theorem processRows_pages (E : Ext F J) (data : Option J) :
    ∀ (rest : List (Option J)) (item : Nat) (s : PState F J),
      s.report.HeaderLayout ≠ [] → 0 ≤ s.page → (∀ c ∈ s.calls, 1 ≤ c.ctx.page) →
      (∀ c ∈ (processRows E data rest item s).1.calls, 1 ≤ c.ctx.page) ∧
      ((processRows E data rest item s).2 = none → (rest ≠ [] ∨ 1 ≤ s.page) →
        1 ≤ (processRows E data rest item s).1.page) := by
  intro rest
  induction rest with
  | nil =>
    intro item s _ _ hcalls
    refine ⟨hcalls, fun _ h => ?_⟩
    rcases h with h | h
    · exact absurd rfl h
    · exact h
  | cons row rest ih =>
    intro item s hh hpage hcalls
    obtain ⟨h1, h2⟩ := processRow_pages E data s item row hh hpage hcalls
    unfold processRows
    rcases Step.andThen_cases (processRow E data s item row)
      (fun s => processRows E data rest (item + 1) s) with ⟨hne, h⟩ | ⟨heq, h⟩
    · rw [h]
      exact ⟨h1, fun h0 => absurd h0 hne⟩
    · rw [h]
      obtain ⟨h3, h4⟩ := h2 heq
      obtain ⟨h5, h6⟩ := ih (item + 1) (processRow E data s item row).1 h4 (by omega) h1
      exact ⟨h5, fun hok _ => h6 hok (Or.inr h3)⟩

/-- C15, counterexample: `dupReport` has no header layout, and both contexts of its run
on one row, for the body and for the trailing footer, have page number 0. -/
theorem pageOne_counterexample :
    dupReport.HeaderLayout = [] ∧
    (dupReport.process flatExt none dupRows).1.calls.map (fun c => (c.sec, c.ctx.page)) =
      [(.body, 0), (.footer, 0)] := by
  decide

/-- C15 (amended): for a report with a header layout and at least one row, every context
that `Report.process` builds, for body rows, headers and footers, has a page number of at
least 1. -/
theorem process_pageOne (E : Ext F J) (r : Report F) (data : Option J)
    (rows : List (Option J)) (hh : r.HeaderLayout ≠ []) (hrows : rows ≠ []) :
    ∀ c ∈ (r.process E data rows).1.calls, 1 ≤ c.ctx.page := by
  obtain ⟨h1, h2⟩ := processRows_pages E data rows 0 ⟨r, 0, [], []⟩ hh (Int.le_refl 0)
    (by simp)
  unfold Report.process
  rcases Step.andThen_cases (processRows E data rows 0 ⟨r, 0, [], []⟩)
    (trailingFooter E data rows.length) with ⟨_, h⟩ | ⟨heq, h⟩
  · rw [h]
    exact h1
  · rw [h]
    unfold trailingFooter
    split
    · intro c hc
      simp only [Step.wrap, renderSection, List.mem_append, List.mem_singleton] at hc
      rcases hc with hc | hc
      · exact h1 c hc
      · rw [hc]
        exact h2 heq (Or.inl hrows)
    · exact h1

theorem process_pageOne_witness :
    1 ≤ ((demoReport.process flatExt none demoRows).1.calls.get ⟨6, by decide⟩).ctx.page :=
  process_pageOne flatExt demoReport none demoRows (by decide) (by decide) _
    (List.get_mem _ _ _)

/-! ## Header and footer leave the accumulator alone -/

/-- The substitution loop leaves the accumulator entry `x` as it is when no variable is
the path `row.x`, whether it succeeds or not. -/
theorem substitute_entry_frame (E : Ext F J) (dj : Ctx F J) (x : GoString) :
    ∀ (ps vs : List GoString) (acc : Option (Acc F)) (line : GoString),
      str "row." ++ x ∉ vs → entry (substitute E dj ps vs acc line).1 x = entry acc x := by
  intro ps
  induction ps with
  | nil => intro vs acc line _; simp [substitute]
  | cons p ps ih =>
    intro vs acc line hvs
    cases vs with
    | nil => simp [substitute]
    | cons v vs =>
      have hv : v ≠ str "row." ++ x := fun e => hvs (by simp [e])
      have hrest : str "row." ++ x ∉ vs := fun e => hvs (List.mem_cons_of_mem _ e)
      have hacc : entry (match getDataItem E dj v with
          | .number f _ => if hasPrefix v (str "row.") then accumulate E acc v f else acc
          | _ => acc) x = entry acc x := by
        split
        · split
          · rename_i hp
            exact entry_accumulate_other E acc _ hp hv
          · rfl
        · rfl
      unfold substitute
      simp only
      split
      · exact hacc
      · rw [ih vs _ _ hrest]
        exact hacc

/-- A call of `formatter.process` leaves the accumulator entry `x` as it is when the
layout never references `row.x`, whether it returns an error or not. -/
theorem processLines_entry_frame (E : Ext F J) (dj : Ctx F J) (x : GoString) :
    ∀ (lines : List GoString) (numVars : Nat) (pictures : List GoString) (fmtLine : GoString)
      (acc : Option (Acc F)) (w : GoString),
      (layoutVars E lines numVars).count (str "row." ++ x) = 0 →
      entry (processLines E dj lines numVars pictures fmtLine acc w).acc x = entry acc x := by
  intro lines
  induction lines with
  | nil => intro numVars pictures fmtLine acc w _; simp [processLines]
  | cons line rest ih =>
    intro numVars pictures fmtLine acc w hcount
    unfold layoutVars at hcount
    unfold processLines
    by_cases hc : isCommentLine line = true
    · rw [if_pos hc] at hcount ⊢
      exact ih _ _ _ _ _ hcount
    · rw [if_neg hc] at hcount ⊢
      by_cases hp : numVars = 0 ∧ isPictureLine line = true
      · rw [if_pos hp] at hcount ⊢
        exact ih _ _ _ _ _ hcount
      · rw [if_neg hp] at hcount ⊢
        by_cases hv : 0 < numVars ∧ isVariableLine line numVars = true
        · rw [if_pos hv] at hcount ⊢
          rw [List.count_append] at hcount
          have h1 : str "row." ++ x ∉ (split 44 line).map E.trimSpace :=
            List.count_eq_zero.mp (by omega)
          rw [(variablesFromLine_of_isVariableLine E line numVars hv.2).1]
          simp only
          have hs := substitute_entry_frame E dj x pictures _ acc fmtLine h1
          cases hsub : substitute E dj pictures ((split 44 line).map E.trimSpace) acc fmtLine with
          | mk acc1 res =>
            rw [hsub] at hs
            cases res with
            | error e => exact hs
            | ok l =>
              simp only
              rw [ih 0 [] [] acc1 _ (by omega)]
              exact hs
        · rw [if_neg hv] at hcount ⊢
          exact ih _ _ _ _ _ hcount

theorem renderBody_frame (E : Ext F J) (data : Option J) (s : PState F J) (item : Nat)
    (row : Option J) (x : GoString)
    (hcount : (layoutVars E s.report.bodyLines 0).count (str "row." ++ x) = 0) :
    (renderBody E data s item row).1.report.accumulator x = s.report.accumulator x := by
  have hP : entry (Formatter.process E ⟨s.report.bodyLines, some s.report.accumulator⟩ []
      (s.report.newState s.page data row item)).acc x = s.report.accumulator x := by
    unfold Formatter.process
    split
    · exact processLines_entry_frame E (s.report.newState s.page data row item) x
        s.report.bodyLines 0 [] [] (some s.report.accumulator) [] hcount
    · rfl
  have key : entry (Formatter.processBytes E ⟨s.report.bodyLines, some s.report.accumulator⟩
      (s.report.newState s.page data row item)).1 x = s.report.accumulator x := by
    unfold Formatter.processBytes
    simp only
    split <;> exact hP
  have hget : ∀ a : Option (Acc F), entry a x = s.report.accumulator x →
      (a.getD s.report.accumulator) x = s.report.accumulator x := by
    intro a ha
    cases a with
    | none => rfl
    | some m => exact ha
  unfold renderBody
  simp only
  split
  · exact hget _ key
  · split <;> exact hget _ key

theorem processRows_frame (E : Ext F J) (data : Option J) (x : GoString)
    (bodyLines : List GoString)
    (hcount : (layoutVars E bodyLines 0).count (str "row." ++ x) = 0) :
    ∀ (rest : List (Option J)) (item : Nat) (s : PState F J), s.report.bodyLines = bodyLines →
      (processRows E data rest item s).1.report.bodyLines = bodyLines ∧
      (processRows E data rest item s).1.report.accumulator x = s.report.accumulator x := by
  intro rest
  induction rest with
  | nil => intro item s hb; exact ⟨hb, rfl⟩
  | cons row rest ih =>
    intro item s hb
    have hbr := (breakPage_frame E data s item row).1
    have hrow : (processRow E data s item row).1.report.bodyLines = bodyLines ∧
        (processRow E data s item row).1.report.accumulator x = s.report.accumulator x := by
      unfold processRow
      rcases Step.andThen_cases (breakPage E data s item row)
        (fun s => renderBody E data s item row) with ⟨_, h⟩ | ⟨_, h⟩
      · rw [h, hbr]
        exact ⟨hb, rfl⟩
      · rw [h]
        refine ⟨?_, ?_⟩
        · rw [(renderBody_calls E data _ item row).2, hbr]
          exact hb
        · rw [renderBody_frame E data _ item row x (by rw [hbr, hb]; exact hcount), hbr]
    unfold processRows
    rcases Step.andThen_cases (processRow E data s item row)
      (fun s => processRows E data rest (item + 1) s) with ⟨_, h⟩ | ⟨_, h⟩
    · rw [h]
      exact hrow
    · rw [h]
      obtain ⟨h1, h2⟩ := ih (item + 1) _ hrow.1
      exact ⟨h1, h2.trans hrow.2⟩

theorem trailingFooter_report (E : Ext F J) (data : Option J) (n : Nat) (s : PState F J) :
    (trailingFooter E data n s).1.report = s.report := by
  unfold trailingFooter
  split <;> rfl

/-- C16: rendering a header or a footer leaves the report, and with it the accumulator,
unchanged: the rendering of a section, the page break (footer and header) and the
trailing footer return the report they were given; and when the body layout does not
reference `row.x`, the accumulator entry `x` after the whole run is the one before it,
whatever the header and footer layouts reference. -/
theorem sections_frame (E : Ext F J) (data : Option J) :
    (∀ (s : PState F J) (sec : Section) (lines : List GoString) (ctx : Ctx F J),
      (renderSection E s sec lines ctx).1.report = s.report) ∧
    (∀ (s : PState F J) (item : Nat) (row : Option J),
      (breakPage E data s item row).1.report = s.report) ∧
    (∀ (n : Nat) (s : PState F J), (trailingFooter E data n s).1.report = s.report) ∧
    (∀ (r : Report F) (rows : List (Option J)) (x : GoString),
      (layoutVars E r.bodyLines 0).count (str "row." ++ x) = 0 →
      (r.process E data rows).1.report.accumulator x = r.accumulator x) := by
  refine ⟨fun _ _ _ _ => rfl, fun s item row => (breakPage_frame E data s item row).1,
    trailingFooter_report E data, ?_⟩
  intro r rows x hcount
  obtain ⟨_, h2⟩ := processRows_frame E data x r.bodyLines hcount rows 0 ⟨r, 0, [], []⟩ rfl
  unfold Report.process
  rcases Step.andThen_cases (processRows E data rows 0 ⟨r, 0, [], []⟩)
    (trailingFooter E data rows.length) with ⟨_, h⟩ | ⟨_, h⟩
  · rw [h]
    exact h2
  · rw [h, trailingFooter_report]
    exact h2

theorem sections_frame_witness :
    (hdrReport.process flatExt none demoRows).1.report.accumulator (str "n") = none ∧
    entry (Formatter.process flatExt ⟨hdrReport.headerLines, none⟩ []
      (hdrReport.newState 1 none (some [(str "n", .number 5 5)]) 0)).acc (str "n") = some 5 ∧
    (hdrReport.process flatExt none demoRows).1.out =
      str "Row 5  \nab  \ncd  \n0    \nRow 1  \ne   \n0    \n" :=
  ⟨(sections_frame flatExt none).2.2.2 hdrReport demoRows (str "n") (by decide),
    by decide, by decide⟩

end Goform
